import Mathlib

/-!
Verification development for the server-management shell.

Each section embeds one component of the source tree as executable Lean
definitions (pure data plus explicit state passing) and proves the spec
claims about it.  Python machine integers are modelled as `Int`, dynamic
values as the `PyVal` sum type, wall-clock instants as abstract `Nat`
ticks supplied by the caller, and fallible code returns `Except`/`Option`.
-/

/-- Dynamic (runtime-tagged) Python value, as used for command parameters,
variables and configuration properties.  Floats do not occur in any claim
and are omitted. -/
inductive PyVal where
  | none : PyVal
  | bool (b : Bool) : PyVal
  | int (n : Int) : PyVal
  | str (s : String) : PyVal
  | list (xs : List PyVal) : PyVal
  | dict (kvs : List (PyVal × PyVal)) : PyVal
  | path (p : String) : PyVal

/-- Python `str.startswith(pre)`, phrased over the character lists so that
concrete instances evaluate inside the kernel. -/
def pyStartsWith (s pre : String) : Bool := pre.data.isPrefixOf s.data

/-- Runtime class tag of a value: the result of Python `type(v)`. -/
inductive PyClass where
  | noneType | boolC | intC | strC | listC | dictC | pathC
deriving DecidableEq, Repr

/-- The runtime class of a dynamic value. -/
def PyVal.klass : PyVal → PyClass
  | .none => .noneType
  | .bool _ => .boolC
  | .int _ => .intC
  | .str _ => .strC
  | .list _ => .listC
  | .dict _ => .dictC
  | .path _ => .pathC

namespace TypeConv

/-! Embedding of `src/cli/utils/type_converter.py`.  Declared static types
(`typing` hints) are the `PyType` sum below; bare un-parameterised container
hints and `Mapping` normalisation are not used by any claim and are omitted.
The JSON and Python-literal textual parsers used by
`_convert_container_type` are taken as parameters (`pJson`, `pLit`): every
theorem below holds for all parser behaviours, and witnesses instantiate
them with `noParse`. -/

/-- A declared static type as written on a command field. -/
inductive PyType where
  | str | int | bool | path | noneT
  | list (elem : PyType)
  | tupleFix (elems : List PyType)
  | tupleVar (elem : PyType)
  | dict (key val : PyType)
  | union (branches : List PyType)

/-- Whether a hint is the `NoneType` class. -/
def PyType.isNoneT : PyType → Bool
  | .noneT => true
  | _ => false

/-- Whether a hint is the `bool` class. -/
def PyType.isBoolT : PyType → Bool
  | .bool => true
  | _ => false

/-- Whether the hint is a concrete runtime class, i.e. Python
`isinstance(t, type)` holds for it (generics and unions are not classes). -/
def PyType.isClass : PyType → Bool
  | .str | .int | .bool | .path | .noneT => true
  | _ => false

/-- Python `isinstance(v, t)` for class hints; `bool` is a subclass of
`int`, so a boolean is an instance of `int`. -/
def pyIsInstance (v : PyVal) (t : PyType) : Bool :=
  match v, t with
  | .str _, .str => true
  | .int _, .int => true
  | .bool _, .bool => true
  | .bool _, .int => true
  | .path _, .path => true
  | .none, .noneT => true
  | _, _ => false

mutual

/-- Python `repr` of a value (strings single-quoted, no escaping modelled). -/
def pyReprOf : PyVal → String
  | .none => "None"
  | .bool b => if b then "True" else "False"
  | .int n => toString n
  | .str s => "\x27" ++ s ++ "\x27"
  | .list xs => "[" ++ reprCommaSep xs ++ "]"
  | .dict kvs => "\x7b" ++ reprKvs kvs ++ "\x7d"
  | .path p => "PosixPath(\x27" ++ p ++ "\x27)"
termination_by v => sizeOf v

/-- Comma-separated reprs of list elements. -/
def reprCommaSep : List PyVal → String
  | [] => ""
  | [x] => pyReprOf x
  | x :: xs => pyReprOf x ++ ", " ++ reprCommaSep xs
termination_by xs => sizeOf xs

/-- Comma-separated reprs of dict items. -/
def reprKvs : List (PyVal × PyVal) → String
  | [] => ""
  | [(k, v)] => pyReprOf k ++ ": " ++ pyReprOf v
  | (k, v) :: kvs => pyReprOf k ++ ": " ++ pyReprOf v ++ ", " ++ reprKvs kvs
termination_by kvs => sizeOf kvs

end

/-- Python `str(v)`: identity on strings and paths, repr-like otherwise. -/
def pyStrOf : PyVal → String
  | .str s => s
  | .path p => p
  | v => pyReprOf v

/-- Python `int(s)`: optional surrounding whitespace, optional sign,
decimal digits. -/
def pyParseInt (s : String) : Option Int :=
  let t := s.trim
  let t := if t.startsWith "+" then t.drop 1 else t
  if t.startsWith "-" then
    if (t.drop 1).length > 0 ∧ (t.drop 1).all Char.isDigit then t.toInt? else Option.none
  else
    if t.length > 0 ∧ t.all Char.isDigit then t.toInt? else Option.none

/-- Home directory used by `os.path.expanduser`. -/
def pyUserHome : String := "/home/user"

/-- Python `os.path.expanduser` on the leading tilde forms. -/
def expanduser (s : String) : String :=
  if s = "~" then pyUserHome
  else if s.startsWith "~/" then pyUserHome ++ s.drop 1
  else s

/-- Display name of a type for error text. -/
def PyType.name : PyType → String
  | .str => "str"
  | .int => "int"
  | .bool => "bool"
  | .path => "Path"
  | .noneT => "NoneType"
  | .list _ => "list"
  | .tupleFix _ => "tuple"
  | .tupleVar _ => "tuple"
  | .dict _ _ => "dict"
  | .union _ => "Union"

/-- Embedding of `TypeConverter._convert_single_type` (lines 70-108): Path
expansion, word-set booleans, string identity, then the generic
`expected_type(value_str)` constructor call, which succeeds only for `int`
here and raises for non-callable or non-class hints. -/
def convertSingle (s : String) (t : PyType) : Except String PyVal :=
  match t with
  | .path => .ok (.path (expanduser s))
  | .bool =>
      let l := s.toLower
      if l = "yes" ∨ l = "true" ∨ l = "t" ∨ l = "y" ∨ l = "1" then .ok (.bool true)
      else if l = "no" ∨ l = "false" ∨ l = "f" ∨ l = "n" ∨ l = "0" then .ok (.bool false)
      else .error ("Cannot convert " ++ s ++ " to boolean")
  | .str => .ok (.str s)
  | .int =>
      match pyParseInt s with
      | some n => .ok (.int n)
      | Option.none => .error ("Cannot convert " ++ s ++ " to int")
  | t => .error ("Cannot convert " ++ s ++ " to " ++ t.name)

/-- First branch of a Union that `_convert_single_type` accepts (the loop
at `TypeConverter.convert` lines 49-57). -/
def tryBranches (s : String) (br : List PyType) : Except String PyVal :=
  match br with
  | [] => .error ("Cannot convert " ++ s ++ " to any branch")
  | t :: rest =>
      match convertSingle s t with
      | .ok v => .ok v
      | .error _ => tryBranches s rest

/-- Whether the hint dispatches to `_convert_container_type`. -/
def PyType.isContainer : PyType → Bool
  | .list _ | .tupleFix _ | .tupleVar _ | .dict _ _ => true
  | _ => false

/-- CSV fallback parser used by `_convert_container_type`: split on commas
and trim each item. -/
def parseCsv (s : String) : PyVal :=
  .list (((s.splitOn ",").map (fun item => PyVal.str item.trim)))

/-- A parser that never succeeds; used to instantiate the abstract textual
parsers in concrete witnesses. -/
def noParse : String → Option PyVal := fun _ => Option.none

mutual

/-- Embedding of `TypeConverter.convert` (lines 28-67): `None` passes
through, the value is stringified, `NoneType` is stripped from Unions, a
singleton remainder is dispatched directly, a wider Union tries
`_convert_single_type` on each branch in order, and container hints go to
`_convert_container_type`. -/
def convert (pJson pLit : String → Option PyVal) (v : PyVal) (t : PyType) :
    Except String PyVal :=
  match v with
  | .none => .ok .none
  | v =>
      let s := pyStrOf v
      match t with
      | .union br =>
          match h2 : br.filter (fun b => !b.isNoneT) with
          | [t2] =>
              have ht : sizeOf t2 < 1 + sizeOf br := by
                have hmem : t2 ∈ List.filter (fun b => !b.isNoneT) br := by
                  rw [h2]; exact List.mem_singleton.mpr rfl
                have hm : t2 ∈ br := (List.mem_filter.mp hmem).1
                have := List.sizeOf_lt_of_mem hm
                omega
              if t2.isContainer then convertContainer pJson pLit s t2
              else convertSingle s t2
          | br2 => tryBranches s br2
      | t =>
          if t.isContainer then convertContainer pJson pLit s t
          else convertSingle s t
termination_by (sizeOf t, 5, 0)

/-- Embedding of `TypeConverter._convert_container_type` (lines 111-159 and
247): empty string short-circuits for list targets, then the JSON,
Python-literal and CSV parsers are tried in order; any shape mismatch or
element conversion failure falls through to the next parser. -/
def convertContainer (pJson pLit : String → Option PyVal) (s : String)
    (t : PyType) : Except String PyVal :=
  if (s == "") && (match t with | .list _ => true | _ => false) then .ok (.list [])
  else
    tryParsers pJson pLit [pJson, pLit, fun str => some (parseCsv str)] s t
termination_by (sizeOf t, 4, 0)

/-- The parser loop of `_convert_container_type` (lines 151-245): first
parser whose output also converts cleanly wins; all failures end in the
final `Cannot convert` error. -/
def tryParsers (pJson pLit : String → Option PyVal)
    (ps : List (String → Option PyVal)) (s : String) (t : PyType) :
    Except String PyVal :=
  match ps with
  | [] => .error ("Cannot convert " ++ s ++ " to " ++ t.name)
  | p :: rest =>
      match p s with
      | Option.none => tryParsers pJson pLit rest s t
      | some parsed =>
          match convertParsed pJson pLit parsed t with
          | .ok r => .ok r
          | .error _ => tryParsers pJson pLit rest s t
termination_by (sizeOf t, 3, sizeOf ps)

/-- Body of the per-parser attempt in `_convert_container_type` (lines
161-242): container shape validation followed by element-wise conversion;
Union element hints keep values that are already instances of a concrete
class branch. -/
def convertParsed (pJson pLit : String → Option PyVal) (parsed : PyVal)
    (t : PyType) : Except String PyVal :=
  match t with
  | .list elem =>
      match parsed with
      | .list items =>
          match elem with
          | .union us => (convertUnionItems pJson pLit us items).map .list
          | elem => (convertItems pJson pLit elem items).map .list
      | _ => .error "shape"
  | .tupleVar elem =>
      match parsed with
      | .list items => (convertItems pJson pLit elem items).map .list
      | _ => .error "shape"
  | .tupleFix ts =>
      match parsed with
      | .list items =>
          if items.length ≠ ts.length then
            .error "Expected a different number of elements"
          else (convertTupleFix pJson pLit ts items).map .list
      | _ => .error "shape"
  | .dict kT vT =>
      match parsed with
      | .dict kvs => (convertKvs pJson pLit kT vT kvs).map .dict
      | _ => .error "shape"
  | t => .error ("Cannot convert to " ++ t.name)
termination_by (sizeOf t, 2, 0)

/-- List elements under a non-Union element hint (line 197). -/
def convertItems (pJson pLit : String → Option PyVal) (elem : PyType)
    (items : List PyVal) : Except String (List PyVal) :=
  match items with
  | [] => .ok []
  | item :: rest =>
      match convert pJson pLit item elem with
      | .error e => .error e
      | .ok v =>
          match convertItems pJson pLit elem rest with
          | .error e => .error e
          | .ok vs => .ok (v :: vs)
termination_by (sizeOf elem, 6, sizeOf items)

/-- List elements under a Union element hint (lines 184-194): an element
that is already an instance of one of the Union's concrete class branches
is kept unchanged; anything else goes through the normal conversion.
`pyIsInstance` is false on non-class hints, matching the
`isinstance(t, type)` filter in the source. -/
def convertUnionItems (pJson pLit : String → Option PyVal)
    (us : List PyType) (items : List PyVal) : Except String (List PyVal) :=
  match items with
  | [] => .ok []
  | item :: rest =>
      if us.any (fun b => pyIsInstance item b) then
        match convertUnionItems pJson pLit us rest with
        | .error e => .error e
        | .ok vs => .ok (item :: vs)
      else
        match convert pJson pLit item (.union us) with
        | .error e => .error e
        | .ok v =>
            match convertUnionItems pJson pLit us rest with
            | .error e => .error e
            | .ok vs => .ok (v :: vs)
termination_by (1 + sizeOf us, 6, sizeOf items)

/-- Fixed-arity tuple elements, converted pairwise with their hints
(lines 209-212). -/
def convertTupleFix (pJson pLit : String → Option PyVal) (ts : List PyType)
    (items : List PyVal) : Except String (List PyVal) :=
  match ts, items with
  | [], _ => .ok []
  | _, [] => .ok []
  | te :: ts', item :: rest =>
      match convert pJson pLit item te with
      | .error e => .error e
      | .ok v =>
          match convertTupleFix pJson pLit ts' rest with
          | .error e => .error e
          | .ok vs => .ok (v :: vs)
termination_by (sizeOf ts, 6, sizeOf items)

/-- Dict items (lines 219-242): keys always convert; values under a Union
hint keep instances of concrete class branches. -/
def convertKvs (pJson pLit : String → Option PyVal) (kT vT : PyType)
    (kvs : List (PyVal × PyVal)) : Except String (List (PyVal × PyVal)) :=
  match kvs with
  | [] => .ok []
  | (k, v) :: rest =>
      have hk : 0 < sizeOf kT := by cases kT <;> simp_arith
      have hv : 0 < sizeOf vT := by cases vT <;> simp_arith
      match convert pJson pLit k kT with
      | .error e => .error e
      | .ok k' =>
          let v'R : Except String PyVal :=
            match vT with
            | .union us =>
                if us.any (fun b => pyIsInstance v b) then .ok v
                else convert pJson pLit v (.union us)
            | vT => convert pJson pLit v vT
          match v'R with
          | .error e => .error e
          | .ok v' =>
              match convertKvs pJson pLit kT vT rest with
              | .error e => .error e
              | .ok rest' => .ok ((k', v') :: rest')
termination_by (sizeOf kT + sizeOf vT, 6, sizeOf kvs)

end

/-- Claim C5 counterexample: the value `5` is an instance of the branch
type `int` of `Union[str, int]`, yet `convert(5, Union[str, int])`
stringifies the value and accepts the first branch, returning the string
`"5"` — the runtime type is not preserved and no instance short-circuit
happens at top level. -/
theorem pyReprOf_int (n : Int) : pyReprOf (.int n) = toString n := by
  rw [pyReprOf.eq_def]

theorem pyStrOf_int (n : Int) : pyStrOf (PyVal.int n) = toString n := by
  simp only [pyStrOf, pyReprOf_int]

theorem c5_counterexample :
    pyIsInstance (.int 5) PyType.int = true ∧
    convert noParse noParse (.int 5) (.union [.str, .int]) = .ok (.str "5") ∧
    (PyVal.str "5").klass ≠ (PyVal.int 5).klass := by
  refine ⟨rfl, ?_, by simp [PyVal.klass]⟩
  rw [convert.eq_def]
  simp only [pyStrOf_int]
  rfl

theorem convertUnionItems_preserves (pJson pLit : String → Option PyVal)
    (us : List PyType) :
    ∀ (items out : List PyVal),
      convertUnionItems pJson pLit us items = .ok out →
      ∀ (i : Nat) (v : PyVal), items.get? i = some v →
        (∃ b ∈ us, pyIsInstance v b = true) → out.get? i = some v := by
  intro items
  induction items with
  | nil => intro out h i v hv; simp at hv
  | cons item rest ih =>
      intro out h i v hv hinst
      rw [convertUnionItems] at h
      by_cases hany : us.any (fun b => pyIsInstance item b) = true
      · rw [if_pos hany] at h
        cases hrest : convertUnionItems pJson pLit us rest with
        | error e => rw [hrest] at h; simp [Except.bind] at h
        | ok vs =>
            rw [hrest] at h
            simp only [Except.bind] at h
            cases h
            match i, hv with
            | 0, hv => simpa using hv
            | Nat.succ j, hv => exact ih vs hrest j v (by simpa using hv) hinst
      · rw [if_neg hany] at h
        match i, hv with
        | 0, hv =>
            exfalso
            apply hany
            obtain ⟨b, hb, hbi⟩ := hinst
            have hv' : item = v := by simpa using hv
            subst hv'
            exact List.any_eq_true.mpr ⟨b, hb, hbi⟩
        | Nat.succ j, hv =>
            cases hc : convert pJson pLit item (.union us) with
            | error e => rw [hc] at h; simp [Except.bind] at h
            | ok w =>
                rw [hc] at h
                cases hrest : convertUnionItems pJson pLit us rest with
                | error e => rw [hrest] at h; simp [Except.bind] at h
                | ok vs =>
                    rw [hrest] at h
                    simp only [Except.bind] at h
                    cases h
                    exact ih vs hrest j v (by simpa using hv) hinst

/-- Claim C5 (amended): the instance short-circuit lives in the container
element conversion, not at top level.  When a parsed list is converted
against declared type `List[Union[...]]`, every element that is already an
instance of one of the Union's concrete class branches is returned
unchanged at its position; top-level `convert(v, Union[...])` instead
stringifies `v` and retries the branches in declaration order, which can
change the runtime type. -/
theorem c5_list_union_preserves_instances (pJson pLit : String → Option PyVal)
    (us : List PyType) (items out : List PyVal)
    (h : convertParsed pJson pLit (.list items) (.list (.union us)) =
      .ok (.list out))
    (i : Nat) (v : PyVal) (hv : items.get? i = some v)
    (hinst : ∃ b ∈ us, pyIsInstance v b = true) :
    out.get? i = some v := by
  rw [convertParsed] at h
  cases hu : convertUnionItems pJson pLit us items with
  | error e => rw [hu] at h; simp [Except.map] at h
  | ok vs =>
      rw [hu] at h
      simp only [Except.map, Except.ok.injEq, PyVal.list.injEq] at h
      subst h
      exact convertUnionItems_preserves pJson pLit us items vs hu i v hv hinst

/-- Claim C5 witness: a list containing an `int` and a `str`, converted
against `List[Union[int, str]]`, keeps the integer element unchanged. -/
theorem c5_list_union_preserves_instances_witness :
    ([PyVal.int 3, PyVal.str "a"].get? 0 = some (PyVal.int 3)) :=
  c5_list_union_preserves_instances noParse noParse [.int, .str]
    [PyVal.int 3, PyVal.str "a"] [PyVal.int 3, PyVal.str "a"]
    (by simp [convertParsed, convertUnionItems, pyIsInstance, Except.map])
    0 (PyVal.int 3) rfl ⟨.int, by simp, rfl⟩

end TypeConv

namespace Declarative

open TypeConv

/-! Embedding of `src/cli/commands/declarative.py`: the `Parameter`
descriptor, `ParameterDefinition`, `get_parameter_definitions` and
`parse`.  A command class is modelled as the ordered list of its annotated
fields; `getattr(cls, name, None)` yields either a `Parameter` descriptor,
a bare default value, or nothing (absent attribute and an explicit `None`
default are indistinguishable to `getattr`). -/

/-- The `Parameter` descriptor (lines 36-55).  `mandatory` is `Option Bool`
because Python allows passing `None` explicitly, which
`ParameterDefinition.__init__` distinguishes from a boolean. -/
structure Param where
  default : Option PyVal := Option.none
  position : Option Int := Option.none
  mandatory : Option Bool := some false
  aliases : List String := []

/-- The class attribute found for an annotated field. -/
inductive FieldAttr where
  | descriptor (p : Param)
  | plain (v : PyVal)

/-- One annotated field of a command class, in declaration order. -/
structure FieldDecl where
  name : String
  ty : PyType
  attr : Option FieldAttr

/-- The derived `ParameterDefinition` (lines 81-135, metadata part). -/
structure ParamDef where
  name : String
  ty : PyType
  default : Option PyVal
  position : Option Int
  mandatory : Bool
  aliases : List String

/-- Build a `ParameterDefinition` from a field (lines 100-131): descriptor
metadata is copied, with `mandatory` falling back to `default is None` when
the descriptor carries `None`; a bare value becomes the default with no
position and `mandatory = (default is None)`; an absent attribute means no
default and hence mandatory. -/
def mkParamDef (name : String) (ty : PyType) (attr : Option FieldAttr) :
    ParamDef :=
  match attr with
  | some (.descriptor p) =>
      { name := name, ty := ty, default := p.default, position := p.position,
        mandatory := match p.mandatory with
          | some b => b
          | Option.none => p.default.isNone,
        aliases := p.aliases }
  | some (.plain v) =>
      { name := name, ty := ty, default := some v, position := Option.none,
        mandatory := false, aliases := [] }
  | Option.none =>
      { name := name, ty := ty, default := Option.none,
        position := Option.none, mandatory := true, aliases := [] }

/-- The primary CLI spelling `-name` (line 125). -/
def ParamDef.paramName (d : ParamDef) : String := "-" ++ d.name

/-- Primary spelling plus alias spellings (lines 128-131). -/
def ParamDef.allParamNames (d : ParamDef) : List String :=
  d.paramName :: d.aliases.map (fun a => "-" ++ a)

/-- The loop body of `get_parameter_definitions` (lines 262-286): skip
underscore names, build the definition, and auto-assign the running
positional index to mandatory parameters without an explicit position.
The counter starts at 0 and is not influenced by explicit positions. -/
def buildDefs : List FieldDecl → Nat → List ParamDef
  | [], _ => []
  | f :: rest, idx =>
      if pyStartsWith f.name "_" then buildDefs rest idx
      else
        let d := mkParamDef f.name f.ty f.attr
        if d.position = Option.none ∧ d.mandatory then
          { d with position := some (idx : Int) } :: buildDefs rest (idx + 1)
        else d :: buildDefs rest idx

/-- Stable insertion into a list sorted by an integer key: the new element
goes after existing elements with an equal key. -/
def insertByKey (key : ParamDef → Int) (d : ParamDef) :
    List ParamDef → List ParamDef
  | [] => [d]
  | x :: xs => if key x ≤ key d then x :: insertByKey key d xs
               else d :: x :: xs

/-- Stable sort by an integer key (Python `sort`/`sorted` are stable). -/
def stableSortBy (key : ParamDef → Int) (l : List ParamDef) : List ParamDef :=
  l.foldl (fun acc d => insertByKey key d acc) []

/-- Sort key of the final `param_defs.sort` (line 289): the position, with
999 substituted for `None`. -/
def defSortKey (d : ParamDef) : Int := d.position.getD 999

/-- Embedding of `DeclarativeCommand.get_parameter_definitions`
(lines 254-291). -/
def getParameterDefinitions (fields : List FieldDecl) : List ParamDef :=
  stableSortBy defSortKey (buildDefs fields 0)

/-- The definitions before position auto-assignment, in declaration order. -/
def preDefs (fields : List FieldDecl) : List ParamDef :=
  (fields.filter (fun f => !pyStartsWith f.name "_")).map
    (fun f => mkParamDef f.name f.ty f.attr)

/-- Whether the auto-assignment branch fires for this definition. -/
def isAuto (d : ParamDef) : Bool := d.position.isNone && d.mandatory

theorem insertByKey_perm (key : ParamDef → Int) (d : ParamDef)
    (l : List ParamDef) : (insertByKey key d l).Perm (d :: l) := by
  induction l with
  | nil => simp [insertByKey]
  | cons x xs ih =>
      rw [insertByKey]
      by_cases h : key x ≤ key d
      · rw [if_pos h]
        exact (ih.cons x).trans (List.Perm.swap d x xs)
      · rw [if_neg h]

theorem stableSortBy_perm (key : ParamDef → Int) (l : List ParamDef) :
    (stableSortBy key l).Perm l := by
  suffices h : ∀ (l acc : List ParamDef),
      (l.foldl (fun acc d => insertByKey key d acc) acc).Perm (l ++ acc) by
    have := h l []
    simpa [stableSortBy] using this
  intro l
  induction l with
  | nil => intro acc; simp
  | cons d rest ih =>
      intro acc
      rw [List.foldl_cons]
      have h1 := ih (insertByKey key d acc)
      have h2 : (rest ++ insertByKey key d acc).Perm (rest ++ (d :: acc)) :=
        List.Perm.append_left rest (insertByKey_perm key d acc)
      have h3 : (rest ++ (d :: acc)).Perm (d :: (rest ++ acc)) :=
        List.perm_middle
      exact (h1.trans h2).trans h3

theorem buildDefs_get (fields : List FieldDecl) :
    ∀ (k i : Nat) (d : ParamDef), (preDefs fields).get? i = some d →
      (buildDefs fields k).get? i =
        some (if isAuto d then
                { d with position := some (((k + ((preDefs fields).take i).countP (fun e => isAuto e)) : Int)) }
              else d) := by
  induction fields with
  | nil => intro k i d h; simp [preDefs] at h
  | cons f rest ih =>
      intro k i d h
      by_cases hu : pyStartsWith f.name "_"
      · have hpre : preDefs (f :: rest) = preDefs rest := by
          simp [preDefs, hu]
        rw [hpre] at h
        rw [buildDefs, if_pos hu, hpre]
        exact ih k i d h
      · have hpre : preDefs (f :: rest) =
            mkParamDef f.name f.ty f.attr :: preDefs rest := by
          simp [preDefs, hu]
        rw [hpre] at h ⊢
        rw [buildDefs, if_neg hu]
        by_cases hauto : (mkParamDef f.name f.ty f.attr).position = Option.none ∧
            (mkParamDef f.name f.ty f.attr).mandatory
        · have hheadauto : isAuto (mkParamDef f.name f.ty f.attr) = true := by
            simp [isAuto, hauto.2, Option.isNone_iff_eq_none.mpr hauto.1]
          rw [if_pos hauto]
          cases i with
          | zero =>
              rw [List.get?_cons_zero] at h
              have hd : mkParamDef f.name f.ty f.attr = d := Option.some.inj h
              subst hd
              simp [hheadauto]
          | succ j =>
              rw [List.get?_cons_succ] at h
              rw [List.get?_cons_succ, ih (k + 1) j d h]
              by_cases hda : isAuto d = true
              · have harith : ∀ (c : Nat),
                    (((k + 1 : Nat)) : Int) + ((c : Nat) : Int) =
                      ((k : Nat) : Int) + (((c + 1 : Nat)) : Int) := by
                  intro c
                  push_cast
                  ring
                simp only [hda, if_true, List.take_succ_cons, List.countP_cons,
                  hheadauto, if_true, harith]
              · simp [hda]
        · have hheadauto : isAuto (mkParamDef f.name f.ty f.attr) = false := by
            rw [isAuto]
            by_contra hc
            simp only [Bool.not_eq_false, Bool.and_eq_true,
              Option.isNone_iff_eq_none] at hc
            exact hauto ⟨hc.1, hc.2⟩
          rw [if_neg hauto]
          cases i with
          | zero =>
              rw [List.get?_cons_zero] at h
              have hd : mkParamDef f.name f.ty f.attr = d := Option.some.inj h
              subst hd
              simp [hheadauto]
          | succ j =>
              rw [List.get?_cons_succ] at h
              rw [List.get?_cons_succ, ih k j d h]
              by_cases hda : isAuto d = true
              · simp only [hda, if_true, List.take_succ_cons, List.countP_cons,
                  hheadauto, if_false, Bool.false_eq_true, add_zero]
              · simp [hda]

/-- A command class mixing an explicit position with an auto-assigned
mandatory field: `a` declares `Parameter(position=0, mandatory=True)` and
`b` is a bare mandatory annotation. -/
def mixedFields : List FieldDecl :=
  [⟨"a", .str, some (.descriptor
      { default := Option.none, position := some 0,
        mandatory := some true, aliases := [] })⟩,
   ⟨"b", .str, Option.none⟩]

/-- Claim C3 counterexample: with an explicit position 0 and a further
mandatory parameter without one, the auto-assignment counter starts at 0
rather than after the highest explicit position, so both `a` and `b` end
up at positional index 0 — two distinct parameters share an index. -/
theorem c3_counterexample :
    (getParameterDefinitions mixedFields).map (fun d => (d.name, d.position)) =
      [("a", (some 0 : Option Int)), ("b", some 0)] ∧ "a" ≠ "b" := by
  constructor
  · decide
  · decide

/-- Claim C3 (amended): a `Parameter` with an explicit position keeps it,
and the remaining mandatory parameters receive positional indices 0, 1, 2,
… in declaration order, counting only auto-assigned parameters and
ignoring explicit positions (so two auto-assigned parameters never share
an index, but an auto-assigned index can collide with an explicit one);
the final definition list is a stable-sorted permutation of these. -/
theorem c3_position_assignment (fields : List FieldDecl) :
    (∀ (i : Nat) (d : ParamDef), (preDefs fields).get? i = some d →
      (buildDefs fields 0).get? i =
        some (if isAuto d then
                { d with position := some (((((preDefs fields).take i).countP (fun e => isAuto e)) : Int)) }
              else d)) ∧
    (getParameterDefinitions fields).Perm (buildDefs fields 0) := by
  constructor
  · intro i d h
    have := buildDefs_get fields 0 i d h
    simpa using this
  · exact stableSortBy_perm defSortKey (buildDefs fields 0)

/-- Claim C3 witness: in `mixedFields`, the explicitly positioned `a` keeps
position 0 and the auto-assigned `b` receives counter value 0 as well; the
sorted definitions are a permutation of the built ones. -/
theorem c3_position_assignment_witness :
    (buildDefs mixedFields 0).get? 1 =
      some (if isAuto (mkParamDef "b" .str Option.none) then
              { mkParamDef "b" .str Option.none with position := some ((((preDefs mixedFields).take 1).countP (fun e => isAuto e) : Int)) }
            else mkParamDef "b" .str Option.none) :=
  (c3_position_assignment mixedFields).1 1 (mkParamDef "b" .str Option.none) rfl

/-! Argument binding: `shlex.split` tokenisation and the two-pass walk of
`DeclarativeCommand.parse` (lines 293-386). -/

/-- Tokeniser modes of the POSIX `shlex` state machine. -/
inductive LexMode where
  | normal | afterEscape | single | double | doubleEscape
deriving DecidableEq, Repr

/-- Whitespace characters that separate `shlex` tokens. -/
def isShlexSpace (c : Char) : Bool :=
  c = ' ' ∨ c = '\t' ∨ c = '\n' ∨ c = '\r'

/-- One-character-per-step embedding of POSIX `shlex.split`: spaces
separate, single and double quotes group, a backslash escapes the next
character outside quotes (dropping an escaped newline) and escapes only
`"` and `\` inside double quotes; an open quote or trailing escape is a
`ValueError`. -/
def shlexAux : List Char → LexMode → Option (List Char) → List String →
    Except String (List String)
  | [], .normal, cur, acc =>
      .ok (acc ++ (match cur with
                   | some t => [String.mk t]
                   | Option.none => []))
  | [], .afterEscape, _, _ => .error "No escaped character"
  | [], .doubleEscape, _, _ => .error "No escaped character"
  | [], _, _, _ => .error "No closing quotation"
  | c :: rest, .normal, cur, acc =>
      if isShlexSpace c then
        match cur with
        | some t => shlexAux rest .normal Option.none (acc ++ [String.mk t])
        | Option.none => shlexAux rest .normal Option.none acc
      else if c = '\\' then shlexAux rest .afterEscape (some (cur.getD [])) acc
      else if c = '\x27' then shlexAux rest .single (some (cur.getD [])) acc
      else if c = '"' then shlexAux rest .double (some (cur.getD [])) acc
      else shlexAux rest .normal (some (cur.getD [] ++ [c])) acc
  | c :: rest, .afterEscape, cur, acc =>
      if c = '\n' then shlexAux rest .normal cur acc
      else shlexAux rest .normal (some (cur.getD [] ++ [c])) acc
  | c :: rest, .single, cur, acc =>
      if c = '\x27' then shlexAux rest .normal cur acc
      else shlexAux rest .single (some (cur.getD [] ++ [c])) acc
  | c :: rest, .double, cur, acc =>
      if c = '"' then shlexAux rest .normal cur acc
      else if c = '\\' then shlexAux rest .doubleEscape cur acc
      else shlexAux rest .double (some (cur.getD [] ++ [c])) acc
  | c :: rest, .doubleEscape, cur, acc =>
      if c = '"' ∨ c = '\\' then shlexAux rest .double (some (cur.getD [] ++ [c])) acc
      else shlexAux rest .double (some (cur.getD [] ++ ['\\', c])) acc

/-- `shlex.split(args_str)` as used by `parse` (lines 315-322); the empty
argument string yields no tokens without invoking the tokeniser. -/
def shlexSplit (argsStr : String) : Except String (List String) :=
  if argsStr = "" then .ok []
  else shlexAux argsStr.data .normal Option.none []

/-- Structured parse failure (the `ValueError` messages of `parse`). -/
inductive PErr where
  | tokenizeError (msg : String)
  | unknownParam (name : String)
  | valueError (param : String) (msg : String)
  | mandatoryEmpty (param : String)
  | missingRequired (param : String)
deriving DecidableEq, Repr

/-- The bound fields of the instance under construction (`setattr`). -/
def Inst := List (String × PyVal)

/-- Python `setattr`: replace an existing binding or append a new one. -/
def setAttr (inst : Inst) (name : String) (v : PyVal) : Inst :=
  match inst with
  | [] => [(name, v)]
  | (n, w) :: rest =>
      if n = name then (n, v) :: rest else (n, w) :: setAttr rest name v

/-- Python `getattr` on the instance map. -/
def getAttr (inst : Inst) (name : String) : Option PyVal :=
  match inst with
  | [] => Option.none
  | (n, w) :: rest => if n = name then some w else getAttr rest name

/-- Embedding of `ParameterDefinition.convert_value` (lines 153-202).  An
empty value returns the declared default when one exists, errors when the
parameter is mandatory, and otherwise becomes `None`; the boolean-flag
branch below it is unreachable because the empty string was already
consumed.  Non-empty values go through `TypeConverter.convert`. -/
def convertValue (pJson pLit : String → Option PyVal) (d : ParamDef)
    (s : String) : Except PErr PyVal :=
  if s = "" then
    match d.default with
    | some v => .ok v
    | Option.none =>
        if d.mandatory then .error (.mandatoryEmpty d.name)
        else .ok .none
  else if d.ty.isBoolT && (s == "") then .ok (.bool true)
  else
    match TypeConv.convert pJson pLit (.str s) d.ty with
    | .ok v => .ok v
    | .error e => .error (.valueError d.name e)

/-- Lookup in the `param_map` dict (lines 303-306): the last definition
registering a spelling wins, as with Python dict insertion. -/
def paramLookup (defs : List ParamDef) (key : String) : Option ParamDef :=
  defs.reverse.find? (fun d => d.allParamNames.contains key)

/-- Membership test `arg in param_map`. -/
def isParamName (defs : List ParamDef) (key : String) : Bool :=
  defs.any (fun d => d.allParamNames.contains key)

/-- First pass of `parse` (lines 327-359) as recursion over the remaining
tokens: a known `-name` consumes the next token as its value when that
token exists and does not itself start with `-`, otherwise binds the empty
string; an unknown `-name` raises; other tokens are skipped.  Returns the
`provided` name set and the partial instance. -/
def firstPass (pJson pLit : String → Option PyVal) (defs : List ParamDef) :
    List String → List String → Inst → Except PErr (List String × Inst)
  | [], provided, inst => .ok (provided, inst)
  | arg :: rest, provided, inst =>
      if pyStartsWith arg "-" then
        match paramLookup defs arg with
        | some d =>
            match rest with
            | next :: rest2 =>
                if !pyStartsWith next "-" then
                  match convertValue pJson pLit d next with
                  | .error e => .error e
                  | .ok v =>
                      firstPass pJson pLit defs rest2 (d.name :: provided)
                        (setAttr inst d.name v)
                else
                  match convertValue pJson pLit d "" with
                  | .error e => .error e
                  | .ok v =>
                      firstPass pJson pLit defs (next :: rest2) (d.name :: provided)
                        (setAttr inst d.name v)
            | [] =>
                match convertValue pJson pLit d "" with
                | .error e => .error e
                | .ok v =>
                    firstPass pJson pLit defs [] (d.name :: provided)
                      (setAttr inst d.name v)
        | Option.none => .error (.unknownParam arg)
      else firstPass pJson pLit defs rest provided inst
termination_by args _ _ => args.length
decreasing_by all_goals simp_arith

/-- The `positional_values` comprehension (lines 362-364): keep a token
when it does not start with `-` and the token before the *first occurrence
of its text* (`args.index`) is not a known parameter spelling. -/
def keepPositional (defs : List ParamDef) (args : List String)
    (x : String) : Bool :=
  !pyStartsWith x "-" &&
    !(decide (0 < args.indexOf x) &&
      pyStartsWith (args.getD (args.indexOf x - 1) "") "-" &&
      isParamName defs (args.getD (args.indexOf x - 1) ""))

/-- The filtered positional value list. -/
def positionalValues (defs : List ParamDef) (args : List String) :
    List String :=
  args.filter (keepPositional defs args)

/-- Second pass of `parse` (lines 366-377): pair positional values with
positional parameters by index, skipping pairs whose parameter was already
provided by name; values beyond the positional parameter count are
ignored. -/
def secondPass (pJson pLit : String → Option PyVal) :
    List ParamDef → List String → List String → Inst →
    Except PErr (List String × Inst)
  | [], _, provided, inst => .ok (provided, inst)
  | _, [], provided, inst => .ok (provided, inst)
  | d :: ds, v :: vs, provided, inst =>
      if provided.contains d.name then
        secondPass pJson pLit ds vs provided inst
      else
        match convertValue pJson pLit d v with
        | .error e => .error e
        | .ok w =>
            secondPass pJson pLit ds vs (d.name :: provided)
              (setAttr inst d.name w)

/-- Default-filling pass of `parse` (lines 379-384): an unprovided
mandatory parameter raises; others receive their default. -/
def applyDefaults : List ParamDef → List String → Inst → Except PErr Inst
  | [], _, inst => .ok inst
  | d :: ds, provided, inst =>
      if provided.contains d.name then applyDefaults ds provided inst
      else if d.mandatory then .error (.missingRequired d.name)
      else applyDefaults ds provided (setAttr inst d.name (d.default.getD .none))

/-- The positional parameters in position order (lines 309-312). -/
def positionalParams (defs : List ParamDef) : List ParamDef :=
  stableSortBy (fun d => d.position.getD 0)
    (defs.filter (fun d => d.position.isSome))

/-- `DeclarativeCommand.parse` after tokenisation. -/
def parseTokens (pJson pLit : String → Option PyVal)
    (fields : List FieldDecl) (args : List String) : Except PErr Inst :=
  let defs := getParameterDefinitions fields
  match firstPass pJson pLit defs args [] [] with
  | .error e => .error e
  | .ok (provided, inst) =>
      match secondPass pJson pLit (positionalParams defs)
          (positionalValues defs args) provided inst with
      | .error e => .error e
      | .ok (provided2, inst2) => applyDefaults defs provided2 inst2

/-- `DeclarativeCommand.parse` (lines 293-386). -/
def parse (pJson pLit : String → Option PyVal) (fields : List FieldDecl)
    (argsStr : String) : Except PErr Inst :=
  match shlexSplit argsStr with
  | .error e => .error (.tokenizeError e)
  | .ok args => parseTokens pJson pLit fields args

/-- The `verbose` field of the repository test commands:
`verbose: bool = Parameter(False, help="Verbose mode", aliases=["v"])`. -/
def verboseField : FieldDecl :=
  ⟨"verbose", .bool, some (.descriptor
      { default := some (.bool false), position := Option.none,
        mandatory := some false, aliases := ["v"] })⟩

/-- Claim C4 divergence: for a declared `bool` parameter with default
`False`, the token `-verbose` with no following value binds the field to
`False`, not `True`: `convert_value` returns the non-`None` default on the
empty string (line 169) before the boolean-flag branch (line 179) can
run, so that branch is unreachable.  The spec and the repository parse
tests (`test_declarative.py`, case `-name test_name -count 10 -verbose`)
expect `True`. -/
theorem c4_bool_flag_binds_default :
    parse TypeConv.noParse TypeConv.noParse [verboseField] "-verbose" =
      .ok [("verbose", PyVal.bool false)] ∧
    PyVal.bool false ≠ PyVal.bool true := by
  constructor
  · show parseTokens TypeConv.noParse TypeConv.noParse [verboseField]
      ["-verbose"] = .ok [("verbose", PyVal.bool false)]
    rw [parseTokens, firstPass]
    simp [pyStartsWith, paramLookup, ParamDef.allParamNames,
      ParamDef.paramName, getParameterDefinitions, buildDefs, mkParamDef,
      verboseField, stableSortBy, insertByKey, convertValue, setAttr]
    rw [firstPass]
    rfl
  · simp

/-- The control exception raised to terminate the shell
(`shell/exceptions.py` lines 10-12); its only payload is the optional
exit-code argument it was constructed with. -/
structure ShellExitExc where
  code : Option Int
deriving DecidableEq, Repr

/-- The annotated fields of `ExitCommand` (exit_command.py): only the
class variable `aliases: ClassVar[List[str]] = ["quit", "bye"]`; the class
declares no exit-code parameter.  (`get_type_hints` surfaces the
`ClassVar` annotation, whose wrapper is dropped here.) -/
def exitFields : List FieldDecl :=
  [⟨"aliases", .list .str,
    some (.plain (.list [.str "quit", .str "bye"]))⟩]

/-- Embedding of `ExitCommand.execute_command` (lines 31-33): it raises
`ShellExit()` with no argument, ignoring the parsed instance and the
shell. -/
def exitCommandRaise (_ : Inst) : ShellExitExc := ⟨Option.none⟩

/-- Dispatch of an `exit` invocation: parse the argument text with the
class fields, then execute, yielding the raised exception. -/
def executeExit (argsStr : String) : Except PErr ShellExitExc :=
  match parse TypeConv.noParse TypeConv.noParse exitFields argsStr with
  | .error e => .error e
  | .ok inst => .ok (exitCommandRaise inst)

/-- Claim C1 divergence: the input `exit 42` parses (the token `42` is an
ignored extra positional, since `ExitCommand` declares no exit-code
parameter) and raises `ShellExit` carrying no code at all — not 42; even
`exit not_an_integer` parses without error.  The spec and the repository
tests (`test_exit_command.py`) expect an `exitcode` field bound to 42 and
`shell.exit_shell(42)`, i.e. `ShellExit(42)`. -/
theorem c1_exit_carries_no_code :
    executeExit "42" = .ok ⟨Option.none⟩ ∧
    executeExit "not_an_integer" = .ok ⟨Option.none⟩ ∧
    (Option.none : Option Int) ≠ some 42 := by
  refine ⟨?_, ?_, by simp⟩
  · rw [executeExit]
    have h : parse TypeConv.noParse TypeConv.noParse exitFields "42" =
        parseTokens TypeConv.noParse TypeConv.noParse exitFields ["42"] := rfl
    rw [h, parseTokens, firstPass]
    simp [pyStartsWith]
    rw [firstPass]
    rfl
  · rw [executeExit]
    have h : parse TypeConv.noParse TypeConv.noParse exitFields
        "not_an_integer" =
        parseTokens TypeConv.noParse TypeConv.noParse exitFields
          ["not_an_integer"] := rfl
    rw [h, parseTokens, firstPass]
    simp [pyStartsWith]
    rw [firstPass]
    rfl

theorem paramLookup_eq_none (defs : List ParamDef) (key : String)
    (h : isParamName defs key = false) :
    paramLookup defs key = Option.none := by
  cases hl : paramLookup defs key with
  | none => rfl
  | some d =>
      exfalso
      have hp := List.find?_some hl
      have hm : d ∈ defs.reverse := List.mem_of_find?_eq_some hl
      have hm2 : d ∈ defs := List.mem_reverse.mp hm
      have : isParamName defs key = true :=
        List.any_eq_true.mpr ⟨d, hm2, hp⟩
      rw [h] at this
      exact Bool.false_ne_true this

theorem firstPass_nondash (pJson pLit : String → Option PyVal)
    (defs : List ParamDef) :
    ∀ (extra : List String), (∀ e ∈ extra, pyStartsWith e "-" = false) →
      ∀ (prov : List String) (inst : Inst),
        firstPass pJson pLit defs extra prov inst = .ok (prov, inst) := by
  intro extra
  induction extra with
  | nil => intro _ prov inst; rw [firstPass]
  | cons e rest ih =>
      intro h prov inst
      rw [firstPass]
      have he : pyStartsWith e "-" = false := h e (List.mem_cons_self e rest)
      simp only [he, if_false, Bool.false_eq_true]
      exact ih (fun x hx => h x (List.mem_cons_of_mem e hx)) prov inst

theorem firstPass_append (pJson pLit : String → Option PyVal)
    (defs : List ParamDef) (extra : List String)
    (hextra : ∀ e ∈ extra, pyStartsWith e "-" = false) :
    ∀ (n : Nat) (args : List String), args.length ≤ n →
      (∀ a, args.getLast? = some a → pyStartsWith a "-" = true →
        isParamName defs a = false) →
      ∀ (prov : List String) (inst : Inst),
        firstPass pJson pLit defs (args ++ extra) prov inst =
          firstPass pJson pLit defs args prov inst := by
  intro n
  induction n with
  | zero =>
      intro args hlen _ prov inst
      have hnil : args = [] := List.length_eq_zero.mp (Nat.le_zero.mp hlen)
      subst hnil
      simp only [List.nil_append]
      rw [firstPass_nondash pJson pLit defs extra hextra prov inst, firstPass]
  | succ m ih =>
      intro args hlen hlast prov inst
      cases args with
      | nil =>
          simp only [List.nil_append]
          rw [firstPass_nondash pJson pLit defs extra hextra prov inst,
            firstPass]
      | cons arg rest =>
          rw [List.cons_append, firstPass, firstPass]
          by_cases hdash : pyStartsWith arg "-" = true
          · simp only [hdash, if_true]
            cases hlk : paramLookup defs arg with
            | none => simp
            | some d =>
                simp only []
                cases rest with
                | nil =>
                    exfalso
                    have hknown : isParamName defs arg = false :=
                      hlast arg rfl hdash
                    rw [paramLookup_eq_none defs arg hknown] at hlk
                    exact Option.noConfusion hlk
                | cons r1 rest2 =>
                    simp only [List.cons_append]
                    by_cases hr1 : pyStartsWith r1 "-" = true
                    · simp only [hr1, Bool.not_true, if_false,
                        Bool.false_eq_true]
                      cases hcv : convertValue pJson pLit d "" with
                      | error e => rfl
                      | ok v =>
                          have hlen2 : (r1 :: rest2).length ≤ m := by
                            simp only [List.length_cons] at hlen ⊢
                            omega
                          apply ih (r1 :: rest2) hlen2
                          intro a ha hd
                          apply hlast a ?_ hd
                          rw [List.getLast?_cons_cons]
                          exact ha
                    · have hr1f : pyStartsWith r1 "-" = false :=
                        Bool.eq_false_iff.mpr hr1
                      simp only [hr1f, Bool.not_false, if_true]
                      cases hcv : convertValue pJson pLit d r1 with
                      | error e => rfl
                      | ok v =>
                          cases rest2 with
                          | nil =>
                              simp only [List.nil_append]
                              rw [firstPass_nondash pJson pLit defs extra
                                hextra _ _, firstPass]
                          | cons r2 rest3 =>
                              have hlen2 : (r2 :: rest3).length ≤ m := by
                                simp only [List.length_cons] at hlen ⊢
                                omega
                              apply ih (r2 :: rest3) hlen2
                              intro a ha hd
                              apply hlast a ?_ hd
                              rw [List.getLast?_cons_cons,
                                List.getLast?_cons_cons]
                              exact ha
          · have hdf : pyStartsWith arg "-" = false :=
              Bool.eq_false_iff.mpr hdash
            simp only [hdf, Bool.false_eq_true, if_false]
            cases rest with
            | nil =>
                simp only [List.nil_append]
                rw [firstPass_nondash pJson pLit defs extra hextra _ _,
                  firstPass]
            | cons r1 rest2 =>
                have hlen2 : (r1 :: rest2).length ≤ m := by
                  simp only [List.length_cons] at hlen ⊢
                  omega
                apply ih (r1 :: rest2) hlen2
                intro a ha hd
                apply hlast a ?_ hd
                rw [List.getLast?_cons_cons]
                exact ha

theorem indexOf_append_of_mem (x : String) (l t : List String)
    (h : x ∈ l) : (l ++ t).indexOf x = l.indexOf x := by
  induction l with
  | nil => exact absurd h (List.not_mem_nil x)
  | cons a as ih =>
      by_cases hax : a == x
      · simp [List.indexOf_cons, hax]
      · have hmem : x ∈ as := by
          rcases List.mem_cons.mp h with he | hm
          · subst he; simp at hax
          · exact hm
        simp [List.indexOf_cons, hax, ih hmem]

theorem keepPositional_append (defs : List ParamDef)
    (args extra : List String) (x : String) (h : x ∈ args) :
    keepPositional defs (args ++ extra) x = keepPositional defs args x := by
  rw [keepPositional, keepPositional]
  have hidx : (args ++ extra).indexOf x = args.indexOf x :=
    indexOf_append_of_mem x args extra h
  have hlt : args.indexOf x < args.length := List.indexOf_lt_length.mpr h
  rw [hidx]
  by_cases hz : 0 < args.indexOf x
  · have hgd : (args ++ extra).getD (args.indexOf x - 1) "" =
        args.getD (args.indexOf x - 1) "" := by
      rw [List.getD_append]
      omega
    rw [hgd]
  · have hz' : args.indexOf x = 0 := by omega
    simp [hz']

theorem positionalValues_append (defs : List ParamDef)
    (args extra : List String) :
    positionalValues defs (args ++ extra) =
      positionalValues defs args ++
        extra.filter (keepPositional defs (args ++ extra)) := by
  rw [positionalValues, positionalValues, List.filter_append]
  congr 1
  apply List.filter_congr
  intro x hx
  exact keepPositional_append defs args extra x hx

theorem secondPass_ignores_tail (pJson pLit : String → Option PyVal) :
    ∀ (ps : List ParamDef) (vals more : List String)
      (prov : List String) (inst : Inst), ps.length ≤ vals.length →
      secondPass pJson pLit ps (vals ++ more) prov inst =
        secondPass pJson pLit ps vals prov inst := by
  intro ps
  induction ps with
  | nil => intro vals more prov inst _; rw [secondPass, secondPass]
  | cons d ds ih =>
      intro vals more prov inst hlen
      cases vals with
      | nil => simp at hlen
      | cons v vs =>
          rw [List.cons_append, secondPass, secondPass]
          by_cases hp : prov.contains d.name
          · simp only [hp, if_true]
            exact ih vs more prov inst (by simpa using hlen)
          · have hpf : prov.contains d.name = false := Bool.eq_false_iff.mpr hp
            simp only [hpf, Bool.false_eq_true, if_false]
            cases hcv : convertValue pJson pLit d v with
            | error e => rfl
            | ok w => exact ih vs more _ _ (by simpa using hlen)

/-- Claim C10: excess positional tokens never change the outcome of
`parse`.  If every extra token lacks the `-` prefix, the original argument
list does not end in a known parameter spelling (otherwise the first extra
token would be consumed as its value), and the original arguments already
supply at least as many positional values as there are positional
parameters, then appending the extra tokens leaves the parse result —
success with identical bound fields, or the identical error —
unchanged. -/
theorem c10_extra_positional_tokens_ignored
    (pJson pLit : String → Option PyVal) (fields : List FieldDecl)
    (args extra : List String)
    (hextra : ∀ e ∈ extra, pyStartsWith e "-" = false)
    (hlast : ∀ a, args.getLast? = some a → pyStartsWith a "-" = true →
      isParamName (getParameterDefinitions fields) a = false)
    (hcount : (positionalParams (getParameterDefinitions fields)).length ≤
      (positionalValues (getParameterDefinitions fields) args).length) :
    parseTokens pJson pLit fields (args ++ extra) =
      parseTokens pJson pLit fields args := by
  rw [parseTokens, parseTokens]
  rw [firstPass_append pJson pLit (getParameterDefinitions fields) extra
    hextra args.length args (Nat.le_refl _) hlast [] []]
  cases hres : firstPass pJson pLit (getParameterDefinitions fields)
      args [] [] with
  | error e => rfl
  | ok pi =>
      obtain ⟨p, i⟩ := pi
      dsimp only
      rw [positionalValues_append]
      rw [secondPass_ignores_tail pJson pLit
        (positionalParams (getParameterDefinitions fields))
        (positionalValues (getParameterDefinitions fields) args)
        (extra.filter (keepPositional (getParameterDefinitions fields)
          (args ++ extra))) p i hcount]

/-- A mandatory positional string parameter, as on the `connect`-style
commands: `name: str = Parameter(position=0, mandatory=True)`. -/
def nameField : FieldDecl :=
  ⟨"name", .str, some (.descriptor
      { default := Option.none, position := some 0,
        mandatory := some true, aliases := [] })⟩

/-- Claim C10 witness: appending the excess tokens `x` and `y` after the
one expected positional argument leaves the parse of a one-positional
command unchanged. -/
theorem c10_extra_positional_tokens_ignored_witness :
    parseTokens TypeConv.noParse TypeConv.noParse [nameField]
        (["hello"] ++ ["x", "y"]) =
      parseTokens TypeConv.noParse TypeConv.noParse [nameField] ["hello"] :=
  c10_extra_positional_tokens_ignored TypeConv.noParse TypeConv.noParse
    [nameField] ["hello"] ["x", "y"]
    (by decide)
    (by
      intro a ha hd
      simp only [List.getLast?_singleton, Option.some.injEq] at ha
      subst ha
      exact absurd hd (by decide))
    (by decide)


end Declarative

namespace Targeting

/-! Embedding of `src/cli/targeting/config_models.py` and the loading path
of `config_store.py`.  The persisted JSON document is modelled field by
field with `Option` marking fields the document may omit; `parse...`
functions embed Pydantic `parse_obj` by its field contract: a declared
field takes the recorded value, an absent field takes its declared
default, and attributes that are not declared model fields (the runtime
`agent` handle that `connect()` attaches) are never populated by
parsing. -/

/-- Connection status enum (`config_models.py` lines 8-13), persisted as
its string value. -/
inductive ConnectionStatus where
  | disconnected | connecting | connected | error
deriving DecidableEq, Repr

/-- Server credentials model (lines 16-21). -/
structure ServerCredentials where
  username : String
  password : Option String
  keyPath : Option String
  useKeyring : Bool
deriving DecidableEq, Repr

/-- A role attached to a system (lines 110-141). -/
structure Role where
  name : String
  description : Option String
  properties : List (String × PyVal)

/-- The in-memory `ServerEndpoint` (lines 61-68) plus the runtime-only
`agent` attribute that `connect()` assigns (line 94); `agent` is not a
declared model field. -/
structure ServerEndpoint where
  hostname : String
  port : Int
  credentials : Option ServerCredentials
  connectionStatus : ConnectionStatus
  lastConnected : Option String
  errorMessage : Option String
  agent : Option Unit

/-- `ServerEndpoint.connect` (lines 73-100) on the success path: status
becomes connected, the error clears, and a live agent handle is
attached. -/
def ServerEndpoint.connect (e : ServerEndpoint) : ServerEndpoint :=
  { e with connectionStatus := .connected, errorMessage := Option.none,
           agent := some () }

/-- The in-memory system record (lines 144-152). -/
structure ConfigSystem where
  name : String
  description : Option String
  localSettings : List (String × PyVal)
  roles : List (String × Role)
  endpoint : ServerEndpoint
  tags : List String
  properties : List (String × PyVal)

/-- The persisted form of an endpoint: every declared field may be present
or absent in the JSON object. -/
structure EndpointDoc where
  hostname : String
  port : Option Int
  credentials : Option ServerCredentials
  connectionStatus : Option ConnectionStatus
  lastConnected : Option String
  errorMessage : Option String

/-- The persisted form of a system. -/
structure SystemDoc where
  name : String
  description : Option String
  localSettings : List (String × PyVal)
  roles : List (String × Role)
  endpoint : EndpointDoc
  tags : List String
  properties : List (String × PyVal)

/-- The persisted form of the whole store (`{"systems": ...,
"global_settings": ...}`). -/
structure StoreDoc where
  systems : List (String × SystemDoc)
  globalSettings : List (String × PyVal)

/-- The in-memory store (lines 343-349, the fields). -/
structure ConfigStore where
  systems : List (String × ConfigSystem)
  globalSettings : List (String × PyVal)

/-- Pydantic parse of an endpoint object: recorded values win, absent
fields take the declared defaults (`port = 22`,
`connection_status = DISCONNECTED`, the rest `None`); the runtime `agent`
attribute is not a model field and is never populated. -/
def parseEndpoint (d : EndpointDoc) : ServerEndpoint :=
  { hostname := d.hostname
    port := d.port.getD 22
    credentials := d.credentials
    connectionStatus := d.connectionStatus.getD .disconnected
    lastConnected := d.lastConnected
    errorMessage := d.errorMessage
    agent := Option.none }

/-- Pydantic parse of a system object. -/
def parseSystem (d : SystemDoc) : ConfigSystem :=
  { name := d.name
    description := d.description
    localSettings := d.localSettings
    roles := d.roles
    endpoint := parseEndpoint d.endpoint
    tags := d.tags
    properties := d.properties }

/-- Embedding of `ConfigStoreManager._load_configuration`
(`config_store.py` lines 34-56): a readable, well-formed document is
parsed with `ConfigStore.parse_obj`; a missing file or any load error
(modelled as `none`) yields a fresh empty store. -/
def loadConfiguration (doc : Option StoreDoc) : ConfigStore :=
  match doc with
  | some d =>
      { systems := d.systems.map (fun p => (p.1, parseSystem p.2))
        globalSettings := d.globalSettings }
  | Option.none => { systems := [], globalSettings := [] }

/-- A system document whose endpoint was saved while connected. -/
def connectedSysDoc : SystemDoc :=
  { name := "prod01"
    description := Option.none
    localSettings := []
    roles := []
    endpoint :=
      { hostname := "prod01.example.com"
        port := some 22
        credentials := Option.none
        connectionStatus := some .connected
        lastConnected := some "2024-01-01T00:00:00"
        errorMessage := Option.none }
    tags := []
    properties := [] }

/-- A persisted document recording a system whose endpoint was saved while
connected. -/
def connectedDoc : StoreDoc :=
  { systems := [("prod01", connectedSysDoc)]
    globalSettings := [] }

/-- Claim C6 counterexample: loading a document that records
`"connection_status": "connected"` yields a system whose endpoint status
is `connected`, not `disconnected` — `parse_obj` honours the recorded
enum value rather than resetting it. -/
theorem c6_counterexample :
    ((loadConfiguration (some connectedDoc)).systems.map
      (fun p => p.2.endpoint.connectionStatus)) = [.connected] ∧
    ConnectionStatus.connected ≠ ConnectionStatus.disconnected := by
  constructor
  · rfl
  · decide

/-- Claim C6 (amended): a system loaded at startup carries exactly the
connection status recorded in the document, defaulting to `disconnected`
only when the document omits the field; and no loaded system holds a live
`RemoteAgent` handle, because the runtime `agent` attribute is not a
persisted model field and only `connect()` assigns it. -/
theorem c6_load_status_and_agent (doc : StoreDoc) :
    ∀ sys ∈ (loadConfiguration (some doc)).systems.map Prod.snd,
      sys.endpoint.agent = Option.none ∧
      ∃ sd ∈ doc.systems.map Prod.snd, sys = parseSystem sd ∧
        sys.endpoint.connectionStatus =
          sd.endpoint.connectionStatus.getD .disconnected := by
  intro sys hmem
  rw [loadConfiguration] at hmem
  simp only [List.map_map, List.mem_map] at hmem
  obtain ⟨⟨n, sd⟩, hin, heq⟩ := hmem
  subst heq
  refine ⟨rfl, sd, ?_, rfl, rfl⟩
  exact List.mem_map.mpr ⟨(n, sd), hin, rfl⟩

/-- Claim C6 witness: the system of `connectedDoc` loads with no agent and
with the recorded `connected` status. -/
theorem c6_load_status_and_agent_witness :
    (parseSystem connectedSysDoc).endpoint.agent = Option.none ∧
    ∃ sd ∈ connectedDoc.systems.map Prod.snd,
      parseSystem connectedSysDoc = parseSystem sd ∧
        (parseSystem connectedSysDoc).endpoint.connectionStatus =
          sd.endpoint.connectionStatus.getD .disconnected :=
  c6_load_status_and_agent connectedDoc (parseSystem connectedSysDoc)
    (List.mem_map.mpr ⟨("prod01", parseSystem connectedSysDoc),
      by simp [loadConfiguration, connectedDoc], rfl⟩)

end Targeting

namespace Discovery

/-! Embedding of `DiscoveryCoordinator._resolve_dependencies`
(`coordinator.py` lines 83-131): graph construction with in-set dependency
filtering, then Kahn's algorithm with a cycle check.  Plugins are their
name and declared dependency list; the loop is given `graph.length` fuel,
which the proofs show is enough for the `while no_deps` loop. -/

/-- Python `list.remove(a)`: delete the first occurrence only. -/
def removeFirst : List String → String → List String
  | [], _ => []
  | x :: xs, a => if x = a then xs else x :: removeFirst xs a

/-- The dependency list a graph records for `a` (empty when absent). -/
def depsIn (g : List (String × List String)) (a : String) : List String :=
  match g.find? (fun p => p.1 == a) with
  | some p => p.2
  | Option.none => []

/-- The edge relation of the built graph: `a` depends on `b`. -/
def edgeTo (g : List (String × List String)) (a b : String) : Prop :=
  b ∈ depsIn g a

/-- A directed cycle: a non-trivial edge path from some vertex back to
itself. -/
def hasCycle (g : List (String × List String)) : Prop :=
  ∃ (v : String) (c : List String), List.Chain (edgeTo g) v (c ++ [v])

/-- Discovery failures of `_resolve_dependencies`. -/
inductive DiscErr where
  | notFound (name : String)
  | circular
deriving DecidableEq, Repr

/-- Graph construction (lines 102-109): unknown requested names raise, and
each plugin's declared dependencies are intersected with the requested
set. -/
def buildGraph (plugins : List (String × List String))
    (toRun : List String) : List String →
    Except DiscErr (List (String × List String))
  | [] => .ok []
  | n :: rest =>
      match plugins.find? (fun p => p.1 == n) with
      | Option.none => .error (.notFound n)
      | some p =>
          match buildGraph plugins toRun rest with
          | .error e => .error e
          | .ok g => .ok ((n, p.2.filter (fun d => toRun.contains d)) :: g)

/-- One `while` iteration body plus the loop (lines 115-125): pop the
first free name, append it to the result, delete it from every dependency
list (`list.remove`: first occurrence only), then queue the nodes that
became free and are in neither the result nor the queue. -/
def kahnLoop : Nat → List (String × List String) → List String →
    List String → List String
  | _, _, result, [] => result
  | 0, _, result, _ :: _ => result
  | fuel + 1, graph, result, name :: rest =>
      let result2 := result ++ [name]
      let graph2 := graph.map (fun p =>
        (p.1, if p.2.contains name then removeFirst p.2 name else p.2))
      let newFree := (graph2.filter (fun p =>
        p.2.isEmpty && !result2.contains p.1 && !rest.contains p.1)).map
          Prod.fst
      kahnLoop fuel graph2 result2 (rest ++ newFree)

/-- Embedding of `_resolve_dependencies` (lines 96-131): requested names
default to all registered plugins, the graph is built, Kahn runs from the
initially free nodes, and a short result means a circular-dependency
error. -/
def resolveDependencies (plugins : List (String × List String))
    (requested : Option (List String)) : Except DiscErr (List String) :=
  let toRun := requested.getD (plugins.map Prod.fst)
  match buildGraph plugins toRun toRun with
  | .error e => .error e
  | .ok graph =>
      let noDeps0 := (graph.filter (fun p => p.2.isEmpty)).map Prod.fst
      let result := kahnLoop graph.length graph [] noDeps0
      if result.length = graph.length then .ok result
      else .error .circular

/-- The graph `_resolve_dependencies` builds for a requested subset of
registered plugins. -/
def graphOf (plugins : List (String × List String))
    (toRun : List String) : List (String × List String) :=
  toRun.map (fun n => (n, (depsIn plugins n).filter (fun d => toRun.contains d)))

/-- Registered plugins where `dup` declares the same dependency twice. -/
def dupPlugins : List (String × List String) :=
  [("dup", ["base", "base"]), ("base", [])]

theorem dupGraph_eval :
    graphOf dupPlugins ["dup", "base"] =
      [("dup", ["base", "base"]), ("base", [])] := rfl

theorem dupGraph_edge_target (a b : String)
    (h : edgeTo (graphOf dupPlugins ["dup", "base"]) a b) : b = "base" := by
  rw [edgeTo] at h
  by_cases ha : a = "dup"
  · subst ha
    have hd : depsIn (graphOf dupPlugins ["dup", "base"]) "dup" =
        ["base", "base"] := rfl
    rw [hd] at h
    simpa using h
  · by_cases hb : a = "base"
    · subst hb
      have hd : depsIn (graphOf dupPlugins ["dup", "base"]) "base" =
          [] := rfl
      rw [hd] at h
      simp at h
    · exfalso
      have h1 : ((("dup" : String)) == a) = false :=
        beq_eq_false_iff_ne.mpr (fun he => ha he.symm)
      have h2 : ((("base" : String)) == a) = false :=
        beq_eq_false_iff_ne.mpr (fun he => hb he.symm)
      rw [depsIn, dupGraph_eval] at h
      simp only [List.find?, h1, h2] at h
      simp at h

theorem dupGraph_base_no_edge (b : String) :
    ¬ edgeTo (graphOf dupPlugins ["dup", "base"]) "base" b := by
  intro h
  rw [edgeTo] at h
  have hd : depsIn (graphOf dupPlugins ["dup", "base"]) "base" = [] := rfl
  rw [hd] at h
  simp at h

theorem dupGraph_chain_last (l : List String) :
    ∀ (a b : String),
      List.Chain (edgeTo (graphOf dupPlugins ["dup", "base"])) a (l ++ [b]) →
      b = "base" := by
  induction l with
  | nil =>
      intro a b h
      rw [List.nil_append, List.chain_cons] at h
      exact dupGraph_edge_target a b h.1
  | cons x l ih =>
      intro a b h
      rw [List.cons_append, List.chain_cons] at h
      exact ih x b h.2

/-- Claim C7 counterexample: with the acyclic registration
`dup → [base, base]` (the same dependency declared twice) and `base → []`,
resolution reports `Circular dependencies detected`, because
`list.remove` deletes only the first occurrence of a completed dependency
and the leftover copy keeps `dup` permanently blocked — yet the built
in-set dependency graph has no cycle. -/
theorem c7_counterexample :
    resolveDependencies dupPlugins (some ["dup", "base"]) =
      .error .circular ∧
    ¬ hasCycle (graphOf dupPlugins ["dup", "base"]) := by
  constructor
  · rfl
  · rintro ⟨v, c, hchain⟩
    have hv : v = "base" := dupGraph_chain_last c v v hchain
    subst hv
    cases c with
    | nil =>
        rw [List.nil_append, List.chain_cons] at hchain
        exact dupGraph_base_no_edge _ hchain.1
    | cons x c =>
        rw [List.cons_append, List.chain_cons] at hchain
        exact dupGraph_base_no_edge x hchain.1

end Discovery

namespace UpdateInfo

/-! Embedding of `src/cli/shell/update_info_node.py` (the `update_info.py`
copy has the identical state-changing methods).  `time.time()` results are
modelled as `Nat` arguments carried by the operations. -/

/-- Log level constants (the enum in `update_info_node.py`). -/
inductive LogLevel where
  | debug | info | warning | error | critical
deriving DecidableEq, Repr

/-- A log entry (`LogEntry.__init__`). -/
structure LogEntry where
  timestamp : Nat
  level : LogLevel
  message : String
deriving DecidableEq, Repr

/-- Error information attached to a node (`ErrorInfo.__init__`). -/
structure ErrorInfo where
  errorType : String
  message : String
  traceback : Option String
deriving DecidableEq, Repr

/-- Node status strings used by `UpdateInfoNode`. -/
inductive Status where
  | pending | running | completed | failed | cancelled
deriving DecidableEq, Repr

/-- A node of the update-info tree (`UpdateInfoNode.__init__`).  The parent
back-reference is informational only and not carried here; children are an
owned list. -/
structure Node where
  nodeId : String
  command : Option String
  childNodes : List Node
  logs : List LogEntry
  output : List (String × PyVal)
  error : Option ErrorInfo
  startTime : Nat
  endTime : Option Nat
  status : Status

/-- A freshly constructed node (`UpdateInfoNode.__init__`): pending status,
no end time. -/
def Node.new (nodeId : String) (command : Option String) (t : Nat) : Node :=
  { nodeId := nodeId
    command := command
    childNodes := []
    logs := []
    output := []
    error := Option.none
    startTime := t
    endTime := Option.none
    status := .pending }

/-- One state-changing method call on a node.  Each constructor carries the
`time.time()` tick observed during the call when the method reads the
clock. -/
inductive Op where
  | start (t : Nat)
  | complete (success : Bool) (t : Nat)
  | cancel (t : Nat)
  | setError (errorType message : String) (traceback : Option String)
  | addLog (message : String) (level : LogLevel) (t : Nat)
  | addOutput (key : String) (value : PyVal)
  | createChild (childId : String) (command : Option String) (t : Nat)

/-- Apply one method call, mirroring the method bodies in
`update_info_node.py` lines 97-156. -/
def Node.apply (n : Node) : Op → Node
  | .start t => { n with startTime := t, status := .running }
  | .complete success t =>
      { n with endTime := some t,
               status := if success then .completed else .failed }
  | .cancel t => { n with endTime := some t, status := .cancelled }
  | .setError et msg tb =>
      { n with error := some ⟨et, msg, tb⟩, status := .failed }
  | .addLog msg lvl t => { n with logs := n.logs ++ [⟨t, lvl, msg⟩] }
  | .addOutput k v => { n with output := n.output ++ [(k, v)] }
  | .createChild cid cmd t =>
      { n with childNodes := n.childNodes ++ [Node.new cid cmd t] }

/-- Run a sequence of method calls from a fresh node. -/
def Node.run (nodeId : String) (command : Option String) (t : Nat)
    (ops : List Op) : Node :=
  ops.foldl Node.apply (Node.new nodeId command t)

/-- Statuses for which the spec requires a non-null `end_time`. -/
def Status.isFinished : Status → Bool
  | .completed | .failed | .cancelled => true
  | _ => false

/-- Operations that write `end_time` (`complete` and `cancel`). -/
def Op.setsEndTime : Op → Bool
  | .complete _ _ | .cancel _ => true
  | _ => false

theorem Node.apply_endTime_of_not_setsEndTime (n : Node) (op : Op)
    (h : op.setsEndTime = false) : (n.apply op).endTime = n.endTime := by
  cases op <;> simp_all [Op.setsEndTime, Node.apply]

theorem Node.run_endTime_ne_none (nodeId : String) (command : Option String)
    (t : Nat) (ops : List Op) :
    (Node.run nodeId command t ops).endTime ≠ Option.none ↔
      ∃ op ∈ ops, op.setsEndTime = true := by
  suffices h : ∀ (ops : List Op) (n : Node),
      (ops.foldl Node.apply n).endTime ≠ Option.none ↔
        (n.endTime ≠ Option.none ∨ ∃ op ∈ ops, op.setsEndTime = true) by
    rw [Node.run, h]
    simp [Node.new]
  intro ops
  induction ops with
  | nil => simp
  | cons op rest ih =>
      intro n
      rw [List.foldl_cons, ih]
      by_cases hset : op.setsEndTime = true
      · cases op <;> simp_all [Op.setsEndTime, Node.apply]
      · rw [Node.apply_endTime_of_not_setsEndTime n op (by simp_all)]
        simp only [List.mem_cons]
        constructor
        · rintro (h | ⟨o, ho, hs⟩)
          · exact Or.inl h
          · exact Or.inr ⟨o, Or.inr ho, hs⟩
        · rintro (h | ⟨o, ho | ho, hs⟩)
          · exact Or.inl h
          · subst ho; simp_all
          · exact Or.inr ⟨o, ho, hs⟩

/-- Claim C2 counterexample: calling `set_error` on a fresh node flips the
status to `failed` while leaving `end_time` null, so the claimed invariant
`end_time != null iff status ∈ {completed, failed, cancelled}` fails after
the one-operation sequence `[set_error]`. -/
theorem c2_counterexample :
    ¬ ((Node.run "n1" (some "error-test") 0
          [.setError "RuntimeError" "boom" Option.none]).endTime ≠ Option.none ↔
        (Node.run "n1" (some "error-test") 0
          [.setError "RuntimeError" "boom" Option.none]).status.isFinished = true) := by
  decide

/-- Claim C2 (amended): for every sequence of `UpdateInfoNode` operations run
from a fresh node, `end_time` is non-null exactly when the sequence contains a
`complete` or `cancel` call; `set_error` flips the status to `failed` without
setting `end_time`, so status alone does not determine `end_time`. -/
theorem c2_endTime_iff_complete_or_cancel (nodeId : String)
    (command : Option String) (t : Nat) (ops : List Op) :
    (Node.run nodeId command t ops).endTime ≠ Option.none ↔
      ∃ op ∈ ops, op.setsEndTime = true :=
  Node.run_endTime_ne_none nodeId command t ops

end UpdateInfo

namespace Discovery

theorem removeFirst_of_nodup (a : String) :
    ∀ (l : List String), l.Nodup →
      removeFirst l a = l.filter (fun x => !(x == a)) := by
  intro l
  induction l with
  | nil => intro _; rfl
  | cons x xs ih =>
      intro hnd
      rw [removeFirst]
      by_cases hx : x = a
      · subst hx
        simp only [if_pos rfl, List.filter_cons, beq_self_eq_true,
          Bool.not_true, Bool.false_eq_true, if_false]
        have hnotin : x ∉ xs := (List.nodup_cons.mp hnd).1
        have hself : xs.filter (fun y => !(y == x)) = xs := by
          apply List.filter_eq_self.mpr
          intro b hb
          simp only [Bool.not_eq_true']
          exact beq_eq_false_iff_ne.mpr (fun he => hnotin (he ▸ hb))
        simp [hself]
      · rw [if_neg hx]
        have hbx : (x == a) = false := beq_eq_false_iff_ne.mpr hx
        simp only [List.filter_cons, hbx, Bool.not_false, if_true]
        rw [ih (List.nodup_cons.mp hnd).2]

/-- The dependency-list transformation one Kahn iteration applies. -/
def eraseDep (deps : List String) (name : String) : List String :=
  if deps.contains name then removeFirst deps name else deps

theorem eraseDep_of_nodup (deps : List String) (name : String)
    (h : deps.Nodup) :
    eraseDep deps name = deps.filter (fun x => !(x == name)) := by
  rw [eraseDep]
  by_cases hc : deps.contains name
  · rw [if_pos hc, removeFirst_of_nodup name deps h]
  · rw [if_neg hc]
    have : ∀ b ∈ deps, (!(b == name)) = true := by
      intro b hb
      simp only [Bool.not_eq_true']
      apply beq_eq_false_iff_ne.mpr
      intro he
      exact hc (List.elem_eq_true_of_mem (he ▸ hb))
    exact (List.filter_eq_self.mpr this).symm

/-- A graph with the result names `R` deleted from every dependency
list. -/
def gFilter (g : List (String × List String)) (R : List String) :
    List (String × List String) :=
  g.map (fun p => (p.1, p.2.filter (fun d => !R.contains d)))

theorem gFilter_nil (g : List (String × List String)) : gFilter g [] = g := by
  rw [gFilter]
  conv_rhs => rw [← List.map_id g]
  apply List.map_congr_left
  intro p _
  simp

theorem gFilter_keys (g : List (String × List String)) (R : List String) :
    (gFilter g R).map Prod.fst = g.map Prod.fst := by
  rw [gFilter, List.map_map]
  rfl

theorem depsIn_gFilter (g : List (String × List String)) (R : List String)
    (n : String) :
    depsIn (gFilter g R) n = (depsIn g n).filter (fun d => !R.contains d) := by
  induction g with
  | nil => rfl
  | cons p g ih =>
      rw [depsIn, depsIn]
      by_cases hp : (p.1 == n) = true
      · simp only [gFilter, List.map_cons, List.find?, hp]
      · simp only [gFilter, List.map_cons, List.find?, hp]
        simpa [gFilter, depsIn] using ih

theorem containsAppendSingleton (R : List String) (d name : String) :
    (R ++ [name]).contains d = (R.contains d || (d == name)) := by
  simp [List.contains_eq_any_beq]
  cases h : (d == name)
  · simp [beq_eq_false_iff_ne.mp h]
  · simp [beq_iff_eq.mp h]

theorem containsIffMem (R : List String) (d : String) :
    (R.contains d = true) ↔ d ∈ R := by
  simp [List.contains_eq_any_beq]

theorem depsIn_eq_of_mem (g : List (String × List String))
    (hk : (g.map Prod.fst).Nodup) (n : String) (deps : List String)
    (h : (n, deps) ∈ g) : depsIn g n = deps := by
  induction g with
  | nil => exact absurd h (List.not_mem_nil _)
  | cons p g ih =>
      rw [depsIn]
      rcases List.mem_cons.mp h with he | hm
      · rw [← he]
        simp [List.find?]
      · have hk2 : (g.map Prod.fst).Nodup := (List.nodup_cons.mp hk).2
        have hn : n ∈ g.map Prod.fst := List.mem_map.mpr ⟨(n, deps), hm, rfl⟩
        have hne : (p.1 == n) = false := by
          apply beq_eq_false_iff_ne.mpr
          intro he2
          exact (List.nodup_cons.mp hk).1 (he2 ▸ hn)
        simp only [List.find?, hne]
        rw [← depsIn, ih hk2 hm]

theorem mem_keys_exists_deps (g : List (String × List String)) (n : String)
    (h : n ∈ g.map Prod.fst) : (n, depsIn g n) ∈ g := by
  induction g with
  | nil => simp at h
  | cons p g ih =>
      rw [depsIn]
      by_cases hp : (p.1 == n) = true
      · simp only [List.find?, hp]
        have he : p.1 = n := eq_of_beq hp
        rw [← he]
        exact List.mem_cons_self p g
      · simp only [List.find?, hp]
        have hn : n ∈ g.map Prod.fst := by
          rcases List.mem_map.mp h with ⟨q, hq, he⟩
          rcases List.mem_cons.mp hq with he2 | hm
          · exfalso
            apply hp
            rw [he2] at he
            exact beq_iff_eq.mpr he
          · exact List.mem_map.mpr ⟨q, hm, he⟩
        right
        rw [← depsIn]
        exact ih hn

theorem depsIn_eq_nil_of_not_mem (g : List (String × List String))
    (n : String) (h : n ∉ g.map Prod.fst) : depsIn g n = [] := by
  induction g with
  | nil => rfl
  | cons p g ih =>
      rw [depsIn]
      have hne : (p.1 == n) = false := by
        apply beq_eq_false_iff_ne.mpr
        intro he
        exact h (List.mem_map.mpr ⟨p, List.mem_cons_self p g, he⟩)
      simp only [List.find?, hne]
      rw [← depsIn]
      apply ih
      intro hm
      exact h (by simp [hm])

/-- Well-formedness of the built graph: unique plugin names, in-set
dependencies, and duplicate-free dependency lists. -/
structure GraphWF (g : List (String × List String)) : Prop where
  keysNodup : (g.map Prod.fst).Nodup
  depsSub : ∀ p ∈ g, ∀ d ∈ p.2, d ∈ g.map Prod.fst
  depsNodup : ∀ p ∈ g, p.2.Nodup

theorem gFilter_step (g : List (String × List String)) (hwf : GraphWF g)
    (R : List String) (name : String) :
    (gFilter g R).map (fun p =>
        (p.1, if p.2.contains name then removeFirst p.2 name else p.2)) =
      gFilter g (R ++ [name]) := by
  rw [gFilter, gFilter, List.map_map]
  apply List.map_congr_left
  intro p hp
  simp only [Function.comp_apply]
  have hnd : (p.2.filter (fun d => !R.contains d)).Nodup :=
    (hwf.depsNodup p hp).filter _
  have := eraseDep_of_nodup (p.2.filter (fun d => !R.contains d)) name hnd
  rw [eraseDep] at this
  rw [this, List.filter_filter]
  congr 1
  apply List.filter_congr
  intro d _
  rw [containsAppendSingleton]
  cases hrd : R.contains d <;> cases hdn : (d == name) <;> simp_all

theorem filter_contains_append (l R : List String) (name : String) :
    l.filter (fun d => !(R ++ [name]).contains d) =
      (l.filter (fun d => !R.contains d)).filter (fun d => !(d == name)) := by
  rw [List.filter_filter]
  apply List.filter_congr
  intro d _
  rw [containsAppendSingleton]
  cases hrd : R.contains d <;> cases hdn : (d == name) <;> simp_all

theorem indexOf_concat_self (R : List String) (name : String)
    (h : name ∉ R) : (R ++ [name]).indexOf name = R.length := by
  induction R with
  | nil => simp [List.indexOf_cons]
  | cons x xs ih =>
      have hx : (x == name) = false :=
        beq_eq_false_iff_ne.mpr (fun he => h (he ▸ List.mem_cons_self x xs))
      simp only [List.cons_append, List.indexOf_cons, hx, cond_false,
        List.length_cons]
      rw [ih (fun hm => h (List.mem_cons_of_mem x hm))]

/-- Loop invariant of Kahn's algorithm: `R` is the emitted prefix, `N` the
queue of free nodes. -/
structure KahnInv (g : List (String × List String)) (R N : List String) :
    Prop where
  rNodup : R.Nodup
  nNodup : N.Nodup
  rSub : ∀ n ∈ R, n ∈ g.map Prod.fst
  nSub : ∀ n ∈ N, n ∈ g.map Prod.fst
  disj : ∀ n ∈ N, n ∉ R
  nFree : ∀ n ∈ N, (depsIn g n).filter (fun d => !R.contains d) = []
  freeQueued : ∀ n ∈ g.map Prod.fst, n ∉ R → n ∉ N →
    (depsIn g n).filter (fun d => !R.contains d) ≠ []
  ordered : ∀ n ∈ R, ∀ d ∈ depsIn g n, d ∈ R ∧ R.indexOf d < R.indexOf n

/-- What holds of the result when the loop drains its queue. -/
structure KahnPost (g : List (String × List String)) (R2 : List String) :
    Prop where
  rNodup : R2.Nodup
  rSub : ∀ n ∈ R2, n ∈ g.map Prod.fst
  ordered : ∀ n ∈ R2, ∀ d ∈ depsIn g n, d ∈ R2 ∧ R2.indexOf d < R2.indexOf n
  stuck : ∀ n ∈ g.map Prod.fst, n ∉ R2 →
    (depsIn g n).filter (fun d => !R2.contains d) ≠ []

theorem keys_subset_of_length (R K : List String) (hnd : R.Nodup)
    (hsub : ∀ n ∈ R, n ∈ K) (hlen : K.length ≤ R.length) :
    ∀ x ∈ K, x ∈ R := by
  have hsp : R.Subperm K := hnd.subperm hsub
  have hperm : R.Perm K := hsp.perm_of_length_le hlen
  intro x hx
  exact hperm.mem_iff.mpr hx

theorem kahnInv_post_of_empty (g : List (String × List String))
    (R : List String) (hinv : KahnInv g R []) : KahnPost g R :=
  ⟨hinv.rNodup, hinv.rSub, hinv.ordered,
    fun n hn hnr => hinv.freeQueued n hn hnr (List.not_mem_nil n)⟩

theorem kahnLoop_post (g : List (String × List String)) (hwf : GraphWF g) :
    ∀ (fuel : Nat) (R N : List String), KahnInv g R N →
      g.length ≤ fuel + R.length →
      KahnPost g (kahnLoop fuel (gFilter g R) R N) := by
  intro fuel
  induction fuel with
  | zero =>
      intro R N hinv hlen
      cases N with
      | nil => exact kahnInv_post_of_empty g R hinv
      | cons x N2 =>
          exfalso
          have hxk : x ∈ g.map Prod.fst := hinv.nSub x (List.mem_cons_self x N2)
          have hxr : x ∈ R := by
            apply keys_subset_of_length R (g.map Prod.fst) hinv.rNodup
              hinv.rSub ?_ x hxk
            simpa using hlen
          exact hinv.disj x (List.mem_cons_self x N2) hxr
  | succ m ih =>
      intro R N hinv hlen
      cases N with
      | nil => exact kahnInv_post_of_empty g R hinv
      | cons name rest =>
          rw [kahnLoop]
          rw [gFilter_step g hwf R name]
          have hnameK : name ∈ g.map Prod.fst :=
            hinv.nSub name (List.mem_cons_self name rest)
          have hnameR : name ∉ R := hinv.disj name (List.mem_cons_self name rest)
          have hnamerest : name ∉ rest := (List.nodup_cons.mp hinv.nNodup).1
          have hrestN : rest.Nodup := (List.nodup_cons.mp hinv.nNodup).2
          have hR2nd : (R ++ [name]).Nodup := by
            rw [List.nodup_append]
            refine ⟨hinv.rNodup, List.nodup_singleton name, ?_⟩
            intro a ha hb
            rw [List.mem_singleton] at hb
            subst hb
            exact hnameR ha
          set R2 := R ++ [name] with hR2
          set NF := ((gFilter g R2).filter (fun p =>
            p.2.isEmpty && !R2.contains p.1 && !rest.contains p.1)).map
              Prod.fst with hNF
          have hNFprop : ∀ nn ∈ NF,
              (depsIn g nn).filter (fun d => !R2.contains d) = [] ∧
              nn ∉ R2 ∧ nn ∉ rest ∧ nn ∈ g.map Prod.fst := by
            intro nn hnn
            rw [hNF] at hnn
            obtain ⟨p, hpmem, hpfst⟩ := List.mem_map.mp hnn
            have hpf := List.mem_filter.mp hpmem
            obtain ⟨q, hq, hpe⟩ := List.mem_map.mp hpf.1
            have hqd : depsIn g q.1 = q.2 :=
              depsIn_eq_of_mem g hwf.keysNodup q.1 q.2 hq
            have hpred := hpf.2
            rw [Bool.and_eq_true, Bool.and_eq_true] at hpred
            obtain ⟨⟨hempty, hnotR2⟩, hnotrest⟩ := hpred
            have hnotR2m : p.1 ∉ R2 := by
              intro hmem2
              rw [(containsIffMem R2 p.1).mpr hmem2] at hnotR2
              simp at hnotR2
            have hnotrestm : p.1 ∉ rest := by
              intro hmem2
              rw [(containsIffMem rest p.1).mpr hmem2] at hnotrest
              simp at hnotrest
            have hfst : q.1 = nn := by rw [← hpe] at hpfst; exact hpfst
            have hsnd : p.2 = q.2.filter (fun d => !R2.contains d) := by
              rw [← hpe]
            refine ⟨?_, hpfst ▸ hnotR2m, hpfst ▸ hnotrestm, ?_⟩
            · rw [hfst] at hqd
              rw [hqd]
              rw [← hsnd]
              exact List.isEmpty_iff.mp hempty
            · rw [← hfst]
              exact List.mem_map.mpr ⟨q, hq, rfl⟩
          have hNFnd : NF.Nodup := by
            rw [hNF]
            have h1 : ((gFilter g R2).map Prod.fst).Nodup := by
              rw [gFilter_keys]
              exact hwf.keysNodup
            have h2 : List.Sublist
                (((gFilter g R2).filter (fun p =>
                  p.2.isEmpty && !R2.contains p.1 && !rest.contains p.1)).map
                    Prod.fst)
                ((gFilter g R2).map Prod.fst) :=
              (List.filter_sublist _).map Prod.fst
            exact h1.sublist h2
          have hinv2 : KahnInv g R2 (rest ++ NF) := by
            refine ⟨hR2nd, ?_, ?_, ?_, ?_, ?_, ?_, ?_⟩
            · rw [List.nodup_append]
              exact ⟨hrestN, hNFnd,
                fun a ha hb => (hNFprop a hb).2.2.1 ha⟩
            · intro n hn
              rcases List.mem_append.mp hn with h | h
              · exact hinv.rSub n h
              · rw [List.mem_singleton] at h
                exact h ▸ hnameK
            · intro n hn
              rcases List.mem_append.mp hn with h | h
              · exact hinv.nSub n (List.mem_cons_of_mem name h)
              · exact (hNFprop n h).2.2.2
            · intro n hn
              rcases List.mem_append.mp hn with h | h
              · intro hmem
                rcases List.mem_append.mp hmem with h2 | h2
                · exact hinv.disj n (List.mem_cons_of_mem name h) h2
                · rw [List.mem_singleton] at h2
                  exact hnamerest (h2 ▸ h)
              · exact (hNFprop n h).2.1
            · intro n hn
              rcases List.mem_append.mp hn with h | h
              · rw [hR2, filter_contains_append,
                  hinv.nFree n (List.mem_cons_of_mem name h)]
                rfl
              · exact (hNFprop n h).1
            · intro n hk hnR2 hnN2 heq
              apply hnN2
              have hq : (n, depsIn g n) ∈ g := mem_keys_exists_deps g n hk
              have hp : (n, (depsIn g n).filter (fun d => !R2.contains d)) ∈
                  gFilter g R2 := List.mem_map.mpr ⟨(n, depsIn g n), hq, rfl⟩
              have hcf : R2.contains n = false := by
                cases hc : R2.contains n
                · rfl
                · exact absurd ((containsIffMem R2 n).mp hc) hnR2
              have hrf : rest.contains n = false := by
                cases hc : rest.contains n
                · rfl
                · exact absurd (List.mem_append_left NF
                    ((containsIffMem rest n).mp hc)) hnN2
              apply List.mem_append_right
              rw [hNF]
              apply List.mem_map.mpr
              refine ⟨(n, (depsIn g n).filter (fun d => !R2.contains d)),
                List.mem_filter.mpr ⟨hp, ?_⟩, rfl⟩
              have hbeq : (((depsIn g n).filter
                  (fun d => !R2.contains d)).isEmpty &&
                  (!R2.contains n) && (!rest.contains n)) = true := by
                rw [heq, hcf, hrf]
                rfl
              exact hbeq
            · intro n hn d hd
              rcases List.mem_append.mp hn with h | h
              · obtain ⟨hdR, hidx⟩ := hinv.ordered n h d hd
                refine ⟨List.mem_append_left _ hdR, ?_⟩
                rw [hR2, Declarative.indexOf_append_of_mem d R [name] hdR,
                  Declarative.indexOf_append_of_mem n R [name] h]
                exact hidx
              · rw [List.mem_singleton] at h
                subst h
                have hfree := hinv.nFree n (List.mem_cons_self n rest)
                have hdR : d ∈ R := by
                  have := List.filter_eq_nil_iff.mp hfree d hd
                  simp only [Bool.not_eq_true', Bool.not_eq_false] at this
                  exact (containsIffMem R d).mp this
                refine ⟨List.mem_append_left _ hdR, ?_⟩
                rw [hR2, Declarative.indexOf_append_of_mem d R [n] hdR,
                  indexOf_concat_self R n hnameR]
                exact List.indexOf_lt_length.mpr hdR
          have hlen2 : g.length ≤ m + R2.length := by
            rw [hR2]
            simp only [List.length_append, List.length_singleton]
            omega
          exact ih R2 (rest ++ NF) hinv2 hlen2

theorem find?_some_of_mem_keys (plugins : List (String × List String))
    (n : String) (h : n ∈ plugins.map Prod.fst) :
    ∃ q, plugins.find? (fun p => p.1 == n) = some q := by
  induction plugins with
  | nil => simp at h
  | cons p rest ih =>
      by_cases hp : (p.1 == n) = true
      · exact ⟨p, List.find?_cons_of_pos rest hp⟩
      · have hn : n ∈ rest.map Prod.fst := by
          rcases List.mem_map.mp h with ⟨x, hx, he⟩
          rcases List.mem_cons.mp hx with he2 | hm
          · exfalso
            apply hp
            rw [← he2]
            exact beq_iff_eq.mpr he
          · exact List.mem_map.mpr ⟨x, hm, he⟩
        obtain ⟨q, hq⟩ := ih hn
        exact ⟨q, by rw [List.find?_cons_of_neg rest hp, hq]⟩

theorem buildGraph_eq (plugins : List (String × List String))
    (toRun : List String) :
    ∀ (l : List String), (∀ n ∈ l, n ∈ plugins.map Prod.fst) →
      buildGraph plugins toRun l = .ok (l.map (fun n =>
        (n, (depsIn plugins n).filter (fun d => toRun.contains d)))) := by
  intro l
  induction l with
  | nil => intro _; rfl
  | cons n rest ih =>
      intro h
      obtain ⟨q, hq⟩ := find?_some_of_mem_keys plugins n
        (h n (List.mem_cons_self n rest))
      have hd : depsIn plugins n = q.2 := by rw [depsIn, hq]
      rw [buildGraph, hq, ih (fun x hx => h x (List.mem_cons_of_mem n hx)),
        List.map_cons, hd]

theorem graphOf_keys (plugins : List (String × List String))
    (toRun : List String) :
    (graphOf plugins toRun).map Prod.fst = toRun := by
  rw [graphOf, List.map_map]
  exact List.map_id toRun

theorem depsIn_nodup (plugins : List (String × List String)) (n : String)
    (hdn : ∀ p ∈ plugins, p.2.Nodup) : (depsIn plugins n).Nodup := by
  cases hq : plugins.find? (fun p => p.1 == n) with
  | none => rw [depsIn, hq]; exact List.nodup_nil
  | some q =>
      rw [depsIn, hq]
      exact hdn q (List.mem_of_find?_eq_some hq)

theorem graphOf_deps (plugins : List (String × List String))
    (toRun : List String) (hrnd : toRun.Nodup) (n : String) (hn : n ∈ toRun) :
    depsIn (graphOf plugins toRun) n =
      (depsIn plugins n).filter (fun d => toRun.contains d) := by
  apply depsIn_eq_of_mem
  · rw [graphOf_keys]
    exact hrnd
  · exact List.mem_map.mpr ⟨n, hn, rfl⟩

theorem graphOf_wf (plugins : List (String × List String))
    (toRun : List String) (hrnd : toRun.Nodup)
    (hdn : ∀ p ∈ plugins, (p.2.filter (fun d => toRun.contains d)).Nodup) :
    GraphWF (graphOf plugins toRun) := by
  refine ⟨?_, ?_, ?_⟩
  · rw [graphOf_keys]
    exact hrnd
  · intro p hp d hd
    rw [graphOf_keys]
    obtain ⟨n, _, he⟩ := List.mem_map.mp hp
    rw [← he] at hd
    exact (containsIffMem toRun d).mp (List.mem_filter.mp hd).2
  · intro p hp
    obtain ⟨n, _, he⟩ := List.mem_map.mp hp
    rw [← he]
    cases hq : plugins.find? (fun pp => pp.1 == n) with
    | none =>
        show ((depsIn plugins n).filter _).Nodup
        rw [depsIn, hq]
        exact List.nodup_nil
    | some q =>
        show ((depsIn plugins n).filter _).Nodup
        rw [depsIn, hq]
        exact hdn q (List.mem_of_find?_eq_some hq)

theorem kahnInv_init (g : List (String × List String)) (hwf : GraphWF g) :
    KahnInv g [] ((g.filter (fun p => p.2.isEmpty)).map Prod.fst) := by
  refine ⟨List.nodup_nil, ?_, ?_, ?_, ?_, ?_, ?_, ?_⟩
  · exact hwf.keysNodup.sublist ((List.filter_sublist g).map Prod.fst)
  · intro n hn
    exact absurd hn (List.not_mem_nil n)
  · intro n hn
    obtain ⟨p, hp, he⟩ := List.mem_map.mp hn
    exact List.mem_map.mpr ⟨p, (List.mem_filter.mp hp).1, he⟩
  · intro n _ hn
    exact absurd hn (List.not_mem_nil n)
  · intro n hn
    obtain ⟨p, hp, he⟩ := List.mem_map.mp hn
    obtain ⟨hpg, hpe⟩ := List.mem_filter.mp hp
    have hd : depsIn g n = p.2 := by
      apply depsIn_eq_of_mem g hwf.keysNodup
      have : (n, p.2) = p := by
        rw [← he]
      rw [this]
      exact hpg
    rw [hd, List.isEmpty_iff.mp hpe]
    rfl
  · intro n hk _ hnN heqnil
    apply hnN
    simp only [List.contains_nil, Bool.not_false, List.filter_true]
      at heqnil
    refine List.mem_map.mpr ⟨(n, depsIn g n),
      List.mem_filter.mpr ⟨mem_keys_exists_deps g n hk, ?_⟩, rfl⟩
    rw [heqnil]
    rfl
  · intro n hn
    exact absurd hn (List.not_mem_nil n)

theorem post_complete_no_cycle (g : List (String × List String))
    (R2 : List String) (hpost : KahnPost g R2)
    (hall : ∀ n ∈ g.map Prod.fst, n ∈ R2) : ¬ hasCycle g := by
  rintro ⟨v, c, hch⟩
  have hkey_of_edge : ∀ a b, edgeTo g a b → a ∈ g.map Prod.fst := by
    intro a b he
    by_contra hna
    rw [edgeTo, depsIn_eq_nil_of_not_mem g a hna] at he
    exact List.not_mem_nil b he
  have hdesc : ∀ (l : List String) (a : String), List.Chain (edgeTo g) a l →
      a ∈ R2 → ∀ b ∈ l, b ∈ R2 ∧ R2.indexOf b < R2.indexOf a := by
    intro l
    induction l with
    | nil =>
        intro a _ _ b hb
        exact absurd hb (List.not_mem_nil b)
    | cons x xs ih =>
        intro a hch2 ha b hb
        rw [List.chain_cons] at hch2
        obtain ⟨hax, hxs⟩ := hch2
        have hx := hpost.ordered a ha x hax
        rcases List.mem_cons.mp hb with he | hm
        · exact he ▸ hx
        · have := ih x hxs hx.1 b hm
          exact ⟨this.1, this.2.trans hx.2⟩
  have hne : c ++ [v] ≠ [] := by simp
  obtain ⟨x, xs, hxe⟩ := List.exists_cons_of_ne_nil hne
  have hch2 := hch
  rw [hxe, List.chain_cons] at hch2
  have hv2 : v ∈ R2 := hall v (hkey_of_edge v x hch2.1)
  have := hdesc (c ++ [v]) v hch hv2 v (by simp)
  exact lt_irrefl _ this.2

/-- The successor a stuck node keeps outside the emitted set: the first
still-blocked dependency. -/
def kahnSucc (g : List (String × List String)) (R2 : List String)
    (n : String) : String :=
  ((depsIn g n).filter (fun d => !R2.contains d)).headD n

theorem kahnSucc_step (g : List (String × List String)) (hwf : GraphWF g)
    (R2 : List String) (hpost : KahnPost g R2) :
    ∀ n, (n ∈ g.map Prod.fst ∧ n ∉ R2) →
      edgeTo g n (kahnSucc g R2 n) ∧
      (kahnSucc g R2 n ∈ g.map Prod.fst ∧ kahnSucc g R2 n ∉ R2) := by
  rintro n ⟨hk, hnR⟩
  have hne := hpost.stuck n hk hnR
  obtain ⟨x, xs, hxe⟩ := List.exists_cons_of_ne_nil hne
  have hhead : kahnSucc g R2 n = x := by
    rw [kahnSucc, hxe]
    rfl
  have hxmem : x ∈ (depsIn g n).filter (fun d => !R2.contains d) := by
    rw [hxe]
    exact List.mem_cons_self x xs
  have hxf := List.mem_filter.mp hxmem
  refine ⟨?_, ?_, ?_⟩
  · rw [edgeTo, hhead]
    exact hxf.1
  · rw [hhead]
    exact hwf.depsSub (n, depsIn g n) (mem_keys_exists_deps g n hk) x hxf.1
  · rw [hhead]
    intro hmem
    have hb := hxf.2
    rw [(containsIffMem R2 x).mpr hmem] at hb
    simp at hb

theorem chain_iterate (g : List (String × List String)) (P : String → Prop)
    (f : String → String)
    (hstep : ∀ n, P n → edgeTo g n (f n) ∧ P (f n)) :
    ∀ (k : Nat) (v : String), P v →
      List.Chain (edgeTo g) v ((List.range k).map (fun t => f^[t+1] v)) := by
  intro k
  induction k with
  | zero =>
      intro v _
      exact List.Chain.nil
  | succ m ih =>
      intro v hv
      rw [List.range_succ_eq_map, List.map_cons]
      have hlist : (List.map (fun t => f^[t+1] v)
          (List.map Nat.succ (List.range m))) =
          List.map (fun t => f^[t+1] (f v)) (List.range m) := by
        rw [List.map_map]
        apply List.map_congr_left
        intro t _
        simp only [Function.comp_apply]
        exact Function.iterate_succ_apply f (t+1) v
      rw [hlist]
      exact List.Chain.cons (hstep v hv).1 (ih (f v) (hstep v hv).2)

theorem stuck_cycle (g : List (String × List String)) (hwf : GraphWF g)
    (R2 : List String) (hpost : KahnPost g R2) (n0 : String)
    (hn0k : n0 ∈ g.map Prod.fst) (hn0 : n0 ∉ R2) : hasCycle g := by
  have hstep := kahnSucc_step g hwf R2 hpost
  have hiter : ∀ i, (kahnSucc g R2)^[i] n0 ∈ g.map Prod.fst ∧
      (kahnSucc g R2)^[i] n0 ∉ R2 := by
    intro i
    induction i with
    | zero => exact ⟨hn0k, hn0⟩
    | succ j ihj =>
        rw [Function.iterate_succ_apply']
        exact (hstep _ ihj).2
  have hcard : ((g.map Prod.fst).toFinset).card <
      (Finset.range (((g.map Prod.fst).toFinset).card + 1)).card := by
    simp
  obtain ⟨i, _, j, _, hij, hfij⟩ :=
    Finset.exists_ne_map_eq_of_card_lt_of_maps_to hcard
      (fun i _ => List.mem_toFinset.mpr (hiter i).1)
  obtain ⟨a, b, hab, hfeq⟩ : ∃ a b, a < b ∧
      (kahnSucc g R2)^[a] n0 = (kahnSucc g R2)^[b] n0 := by
    rcases Nat.lt_trichotomy i j with h | h | h
    · exact ⟨i, j, h, hfij⟩
    · exact absurd h hij
    · exact ⟨j, i, h, hfij.symm⟩
  set f := kahnSucc g R2 with hf
  set v := f^[a] n0 with hvdef
  set k := b - a with hkdef
  have hfk : f^[k] v = v := by
    rw [hvdef, ← Function.iterate_add_apply, show k + a = b by omega]
    exact hfeq.symm
  refine ⟨v, (List.range (k-1)).map (fun t => f^[t+1] v), ?_⟩
  have hch := chain_iterate g
    (fun n => n ∈ g.map Prod.fst ∧ n ∉ R2) f hstep k v (hiter a)
  have hsplit : (List.range k).map (fun t => f^[t+1] v) =
      (List.range (k-1)).map (fun t => f^[t+1] v) ++ [f^[(k-1)+1] v] := by
    conv_lhs => rw [show k = (k-1)+1 by omega, List.range_succ]
    rw [List.map_append, List.map_singleton]
  have hlast : f^[(k-1)+1] v = v := by
    rw [show (k-1)+1 = k by omega]
    exact hfk
  rw [hsplit, hlast] at hch
  exact hch

theorem resolveDependencies_some (plugins : List (String × List String))
    (req : List String) :
    resolveDependencies plugins (some req) =
      match buildGraph plugins req req with
      | .error e => .error e
      | .ok graph =>
          if (kahnLoop graph.length graph []
              ((graph.filter (fun p => p.2.isEmpty)).map Prod.fst)).length
            = graph.length
          then .ok (kahnLoop graph.length graph []
              ((graph.filter (fun p => p.2.isEmpty)).map Prod.fst))
          else .error .circular := rfl

/-- Claim C7 (amended): provided every requested plugin is registered, the
requested list is duplicate-free, and each plugin's dependency list
restricted to the requested set is duplicate-free, `_resolve_dependencies`
builds the graph from declared dependencies intersected with the requested
set and (a) on success returns a permutation of the requested set in which
every plugin appears after each of its in-set dependencies, and (b) raises
the circular-dependency `DiscoveryError` exactly when the in-set dependency
graph has a cycle.  (Without the duplicate-freeness proviso the
first-occurrence-only `list.remove` can report a spurious cycle, see the
counterexample.) -/
theorem c7_resolution_order_and_cycles
    (plugins : List (String × List String)) (requested : List String)
    (hreq : ∀ n ∈ requested, n ∈ plugins.map Prod.fst)
    (hrnd : requested.Nodup)
    (hdn : ∀ p ∈ plugins,
      (p.2.filter (fun d => requested.contains d)).Nodup) :
    (∀ order, resolveDependencies plugins (some requested) =
        .ok order →
      order.Perm requested ∧
      ∀ n ∈ order, ∀ d ∈ depsIn (graphOf plugins requested) n,
        d ∈ order ∧ order.indexOf d < order.indexOf n) ∧
    (resolveDependencies plugins (some requested) =
        .error .circular ↔
      hasCycle (graphOf plugins requested)) := by
  have hbuild : buildGraph plugins requested requested =
      Except.ok (graphOf plugins requested) :=
    buildGraph_eq plugins requested requested hreq
  have hres : resolveDependencies plugins (some requested) =
      (if (kahnLoop (graphOf plugins requested).length
            (graphOf plugins requested) []
            (((graphOf plugins requested).filter
              (fun p => p.2.isEmpty)).map Prod.fst)).length
          = (graphOf plugins requested).length
        then Except.ok (kahnLoop (graphOf plugins requested).length
            (graphOf plugins requested) []
            (((graphOf plugins requested).filter
              (fun p => p.2.isEmpty)).map Prod.fst))
        else Except.error DiscErr.circular) := by
    rw [resolveDependencies_some, hbuild]
  set G := graphOf plugins requested with hGdef
  set N0 := (G.filter (fun p => p.2.isEmpty)).map Prod.fst with hN0
  set R2 := kahnLoop G.length G [] N0 with hR2def
  have hwf : GraphWF G := graphOf_wf plugins requested hrnd hdn
  have hkeys : G.map Prod.fst = requested := graphOf_keys plugins requested
  have hGlen : G.length = requested.length := by
    rw [hGdef, graphOf]
    exact List.length_map _ _
  have hpost : KahnPost G R2 := by
    have h := kahnLoop_post G hwf G.length [] N0 (kahnInv_init G hwf)
      (by simp)
    rwa [gFilter_nil] at h
  by_cases hlen : R2.length = G.length
  · rw [if_pos hlen] at hres
    have hperm : R2.Perm requested := by
      have hsubp : R2.Subperm requested := by
        apply hpost.rNodup.subperm
        intro n hn
        rw [← hkeys]
        exact hpost.rSub n hn
      apply hsubp.perm_of_length_le
      omega
    constructor
    · intro order hord
      rw [hres] at hord
      have hoe : order = R2 := (Except.ok.inj hord).symm
      subst hoe
      exact ⟨hperm, fun n hn d hd => hpost.ordered n hn d hd⟩
    · constructor
      · intro herr
        rw [hres] at herr
        exact Except.noConfusion herr
      · intro hcyc
        exfalso
        refine post_complete_no_cycle G R2 hpost ?_ hcyc
        intro n hn
        rw [hkeys] at hn
        exact hperm.mem_iff.mpr hn
  · rw [if_neg hlen] at hres
    constructor
    · intro order hord
      rw [hres] at hord
      exact Except.noConfusion hord
    · constructor
      · intro _
        have hex : ∃ n0, n0 ∈ G.map Prod.fst ∧ n0 ∉ R2 := by
          by_contra hno
          push_neg at hno
          have h1 : (G.map Prod.fst).Subperm R2 :=
            hwf.keysNodup.subperm (fun n hn => hno n hn)
          have h2 : R2.Subperm (G.map Prod.fst) :=
            hpost.rNodup.subperm hpost.rSub
          have l1 := h1.length_le
          have l2 := h2.length_le
          rw [List.length_map] at l1 l2
          exact hlen (by omega)
        obtain ⟨n0, hn0k, hn0⟩ := hex
        exact stuck_cycle G hwf R2 hpost n0 hn0k hn0
      · intro _
        exact hres

/-- Registered plugins for the C7 witness: `a` depends on `b`. -/
def abPlugins : List (String × List String) :=
  [("a", ["b"]), ("b", [])]

/-- Claim C7 witness: the amended theorem instantiated at two concrete
plugins with one dependency between them. -/
theorem c7_resolution_order_and_cycles_witness :
    (∀ n ∈ ["a", "b"], n ∈ abPlugins.map Prod.fst) ∧
    (["a", "b"] : List String).Nodup ∧
    (∀ p ∈ abPlugins,
      (p.2.filter (fun d => ["a", "b"].contains d)).Nodup) ∧
    ((∀ order, resolveDependencies abPlugins (some ["a", "b"]) =
        .ok order →
      order.Perm ["a", "b"] ∧
      ∀ n ∈ order, ∀ d ∈ depsIn (graphOf abPlugins ["a", "b"]) n,
        d ∈ order ∧ order.indexOf d < order.indexOf n) ∧
    (resolveDependencies abPlugins (some ["a", "b"]) =
        .error .circular ↔
      hasCycle (graphOf abPlugins ["a", "b"]))) :=
  ⟨by decide, by decide, by decide,
    c7_resolution_order_and_cycles abPlugins ["a", "b"]
      (by decide) (by decide) (by decide)⟩

end Discovery


namespace VarMgr

/-! Embedding of `VariableManager.evaluate_expression`
(`variable_manager.py` lines 122-152).  Python values are modelled with an
explicit heap so that aliasing is visible: a variable is bound to an
immediate value or to a reference into the heap, and the heap stores the
mutable list objects.  `eval_locals = self._variables.copy()` is a shallow
copy: the binding list is copied (and discarded after the call), while the
heap is shared with the table. -/

/-- A Python value as stored in a binding: `None`, an `int`, or a
reference to a heap-allocated list. -/
inductive Val where
  | noneV
  | intv (n : Int)
  | ref (r : Nat)
deriving DecidableEq, Repr

/-- Read a heap cell. -/
def heapGet (h : List (Nat × List Int)) (r : Nat) : Option (List Int) :=
  (h.find? (fun c => c.1 == r)).map (fun c => c.2)

/-- Overwrite a heap cell in place. -/
def heapSet (h : List (Nat × List Int)) (r : Nat) (l : List Int) :
    List (Nat × List Int) :=
  h.map (fun c => if c.1 == r then (r, l) else c)

/-- The fragment of Python expressions the sandboxed `eval` receives that
the claims exercise: literals, variable reads, walrus assignments
(which write into `eval_locals`), and the mutating method call
`name.append(e)`. -/
inductive Expr where
  | lit (n : Int)
  | var (name : String)
  | walrus (name : String) (e : Expr)
  | append (name : String) (e : Expr)

/-- Python dict assignment `d[name] = v`: update in place, keeping
insertion order, or append a fresh key. -/
def setVar (env : List (String × Val)) (name : String) (v : Val) :
    List (String × Val) :=
  if env.any (fun p => p.1 == name) then
    env.map (fun p => if p.1 == name then (name, v) else p)
  else env ++ [(name, v)]

/-- `eval` on the expression fragment: threads the heap and the locals
dict, and reports Python exceptions as errors.  `append` resolves the
receiver binding first, evaluates the argument, then mutates the heap
cell, mirroring evaluation order. -/
def evalExpr : List (Nat × List Int) → List (String × Val) → Expr →
    Except String Val × List (Nat × List Int) × List (String × Val)
  | h, env, .lit n => (.ok (.intv n), h, env)
  | h, env, .var s =>
      match env.find? (fun p => p.1 == s) with
      | some p => (.ok p.2, h, env)
      | Option.none => (.error "NameError", h, env)
  | h, env, .walrus s e =>
      match evalExpr h env e with
      | (.error err, h2, env2) => (.error err, h2, env2)
      | (.ok v, h2, env2) => (.ok v, h2, setVar env2 s v)
  | h, env, .append s e =>
      match env.find? (fun p => p.1 == s) with
      | Option.none => (.error "NameError", h, env)
      | some p =>
          match p.2 with
          | .ref r =>
              match evalExpr h env e with
              | (.error err, h2, env2) => (.error err, h2, env2)
              | (.ok v, h2, env2) =>
                  match v with
                  | .intv n =>
                      match heapGet h2 r with
                      | some l => (.ok .noneV, heapSet h2 r (l ++ [n]), env2)
                      | Option.none => (.error "lost reference", h2, env2)
                  | _ => (.error "TypeError", h2, env2)
          | _ => (.error "AttributeError", h, env)

/-- The `VariableManager` state: the `_variables` dict (bindings) plus the
shared heap of mutable objects. -/
structure VM where
  vars : List (String × Val)
  heap : List (Nat × List Int)
deriving DecidableEq

/-- `evaluate_expression` (lines 122-152): run `eval` on a shallow copy of
`_variables`; the result and any heap mutation survive, the mutated locals
dict is discarded, and `_variables` itself is never reassigned. -/
def evaluateExpression (m : VM) (e : Expr) : Except String Val × VM :=
  ((evalExpr m.heap m.vars e).1,
   ⟨m.vars, (evalExpr m.heap m.vars e).2.1⟩)

/-- The observable value of a variable: its binding with references
chased through the heap. -/
inductive DeepVal where
  | noneD
  | intD (n : Int)
  | listD (l : List Int)
  | danglingD
deriving DecidableEq, Repr

/-- Chase a binding through the heap. -/
def deref (h : List (Nat × List Int)) : Val → DeepVal
  | .noneV => .noneD
  | .intv n => .intD n
  | .ref r =>
      match heapGet h r with
      | some l => .listD l
      | Option.none => .danglingD

/-- What the table maps `name` to, as an observable value. -/
def tableValue (m : VM) (name : String) : Option DeepVal :=
  (m.vars.find? (fun p => p.1 == name)).map (fun p => deref m.heap p.2)

/-- A manager whose table binds `servers` to a heap-allocated list, as
`_initialize_defaults` does. -/
def servers0 : VM := ⟨[("servers", .ref 0)], [(0, [1, 2])]⟩

/-- Claim C8 counterexample: evaluating `servers.append(5)` succeeds and
afterwards the table maps `servers` to a longer list — the shallow
`copy()` shares the mutable list object with `eval_locals`, so
`evaluate_expression` is not free of table mutation at the level of
values. -/
theorem c8_counterexample :
    (evaluateExpression servers0 (.append "servers" (.lit 5))).1 =
      .ok .noneV ∧
    tableValue ((evaluateExpression servers0 (.append "servers" (.lit 5))).2)
      "servers" = some (.listD [1, 2, 5]) ∧
    tableValue servers0 "servers" = some (.listD [1, 2]) :=
  ⟨rfl, rfl, rfl⟩

/-- Claim C8 (amended): `evaluate_expression` never rebinds, adds or
removes a table entry — even a walrus assignment only touches the
discarded copy — and a name bound to an immutable value keeps its
observable value; only heap-allocated mutable objects reachable from the
table can change (see the counterexample). -/
theorem c8_eval_preserves_bindings (m : VM) (e : Expr) (name : String)
    (n : Int)
    (h : m.vars.find? (fun p => p.1 == name) = some (name, .intv n)) :
    ((evaluateExpression m e).2).vars = m.vars ∧
    tableValue ((evaluateExpression m e).2) name = tableValue m name := by
  refine ⟨rfl, ?_⟩
  rw [tableValue, tableValue]
  have hv : ((evaluateExpression m e).2).vars = m.vars := rfl
  rw [hv, h]
  rfl

/-- Claim C8 witness: the amended theorem at a table binding
`cleanup_days` to the immutable `30`, with a walrus expression that
rebinds it inside `eval`. -/
theorem c8_eval_preserves_bindings_witness :
    (⟨[("cleanup_days", Val.intv 30)], []⟩ : VM).vars.find?
      (fun p => p.1 == "cleanup_days") = some ("cleanup_days", .intv 30) ∧
    (((evaluateExpression ⟨[("cleanup_days", Val.intv 30)], []⟩
        (.walrus "cleanup_days" (.lit 0))).2).vars =
      (⟨[("cleanup_days", Val.intv 30)], []⟩ : VM).vars ∧
    tableValue ((evaluateExpression ⟨[("cleanup_days", Val.intv 30)], []⟩
        (.walrus "cleanup_days" (.lit 0))).2) "cleanup_days" =
      tableValue ⟨[("cleanup_days", Val.intv 30)], []⟩ "cleanup_days") :=
  ⟨rfl, c8_eval_preserves_bindings ⟨[("cleanup_days", Val.intv 30)], []⟩
    (.walrus "cleanup_days" (.lit 0)) "cleanup_days" 30 rfl⟩

end VarMgr


namespace Expand

/-! Embedding of `VariableManager.expand_variables`
(`variable_manager.py` lines 178-219): two `re.sub` passes over the text.
Pass 1 rewrites each occurrence matching the pattern dollar-brace-[^}]+-
brace, replacing it by `str(evaluate_expression(expr))` and keeping the
original text verbatim when evaluation raises.  Pass 2 rewrites each
`$name` (identifier, not preceded by a backslash, not followed by an
opening brace) by `str(get(name))`, keeping the matched text when the
variable is undefined or `None`.  The evaluator and the variable table
are abstracted as oracles `ev` and `gv` returning the already-stringified
result, or `none` on failure. -/

/-- `[a-zA-Z_]`. -/
def isIdentStart (c : Char) : Bool := c.isAlpha || c = '_'

/-- `[a-zA-Z0-9_]`. -/
def isIdentChar (c : Char) : Bool := c.isAlphanum || c = '_'

/-- The greedy `[^}]+` followed by the closing brace: the characters up
to the first closing brace, and the remainder after it; `none` when the
text has no closing brace. -/
def readUpToBrace : List Char → Option (List Char × List Char)
  | [] => Option.none
  | c :: rest =>
      if c = '}' then some ([], rest)
      else
        match readUpToBrace rest with
        | some (e, after) => some (c :: e, after)
        | Option.none => Option.none

theorem readUpToBrace_length :
    ∀ (l e after : List Char), readUpToBrace l = some (e, after) →
      l.length = e.length + after.length + 1 := by
  intro l
  induction l with
  | nil =>
      intro e after hr
      simp [readUpToBrace] at hr
  | cons c2 r2 ih =>
      intro e after hr
      rw [readUpToBrace] at hr
      by_cases hc : c2 = '}'
      · rw [if_pos hc] at hr
        cases hr
        simp
      · rw [if_neg hc] at hr
        cases hr2 : readUpToBrace r2 with
        | none =>
            rw [hr2] at hr
            cases hr
        | some p =>
            rw [hr2] at hr
            cases hr
            have := ih p.1 p.2 (by rw [hr2])
            simp [this]
            omega

/-- Pass 1: scan for dollar-brace matches; on a match, substitute the
evaluated expression or keep the original text when evaluation fails,
then continue after the match; otherwise advance one character. -/
def pass1 (ev : String → Option String) : List Char → List Char
  | [] => []
  | c :: rest =>
      if c = '$' then
        match rest with
        | '{' :: rest2 =>
            match hr : readUpToBrace rest2 with
            | some (e, after) =>
                if e.isEmpty then c :: pass1 ev ('{' :: rest2)
                else
                  (match ev (String.mk e) with
                   | some s => s.data
                   | Option.none => '$' :: '{' :: (e ++ ['}'])) ++
                    pass1 ev after
            | Option.none => c :: pass1 ev ('{' :: rest2)
        | r => c :: pass1 ev r
      else c :: pass1 ev rest
termination_by l => l.length
decreasing_by
  all_goals simp_arith
  · have := readUpToBrace_length rest2 e after hr
    omega

/-- Pass 2: scan for `$name` with the lookbehind and lookahead of the
source pattern, tracking the preceding character.  When the greedy
identifier run is followed by an opening brace, the regex engine
backtracks one character, so the match drops the final identifier
character when the name has at least two characters; a single-character
name followed by a brace does not match at all. -/
def pass2 (gv : String → Option String) :
    Option Char → List Char → List Char
  | _, [] => []
  | prev, c :: rest =>
      if c = '$' ∧ prev ≠ some '\\' then
        match rest with
        | d :: rest2 =>
            if isIdentStart d then
              match ha : rest2.dropWhile isIdentChar with
              | '{' :: after2 =>
                  if rest2.takeWhile isIdentChar = [] then
                    c :: pass2 gv (some c) (d :: rest2)
                  else
                    (match gv (String.mk
                        (d :: (rest2.takeWhile isIdentChar).dropLast)) with
                     | some s => s.data
                     | Option.none =>
                        '$' :: d :: (rest2.takeWhile isIdentChar).dropLast) ++
                      pass2 gv
                        (some ((d ::
                          (rest2.takeWhile isIdentChar).dropLast).getLastD '$'))
                        ((rest2.takeWhile isIdentChar).getLastD '$' ::
                          '{' :: after2)
              | after =>
                  (match gv (String.mk (d :: rest2.takeWhile isIdentChar)) with
                   | some s => s.data
                   | Option.none => '$' :: d :: rest2.takeWhile isIdentChar) ++
                    pass2 gv
                      (some ((d :: rest2.takeWhile isIdentChar).getLastD '$'))
                      after
            else c :: pass2 gv (some c) (d :: rest2)
        | [] => c :: pass2 gv (some c) []
      else c :: pass2 gv (some c) rest
termination_by _ l => l.length
decreasing_by
  all_goals simp_arith
  · have h1 := (rest2.dropWhile_sublist isIdentChar).length_le
    rw [ha] at h1
    simp only [List.length_cons] at h1
    omega
  · have h1 := (rest2.dropWhile_sublist isIdentChar).length_le
    rw [ha] at h1
    omega

/-- `expand_variables`: pass 1 over the text, then pass 2 over its
output, starting with no preceding character. -/
def expandVariables (ev gv : String → Option String) (text : String) :
    String :=
  String.mk (pass2 gv Option.none (pass1 ev text.data))

theorem readUpToBrace_no_brace (e tail : List Char) (h : '}' ∉ e) :
    readUpToBrace (e ++ '}' :: tail) = some (e, tail) := by
  induction e with
  | nil => simp [readUpToBrace]
  | cons c cs ih =>
      rw [List.cons_append, readUpToBrace]
      have hc : c ≠ '}' := fun hc => h (hc ▸ List.mem_cons_self c cs)
      rw [if_neg hc, ih (fun hm => h (List.mem_cons_of_mem c hm))]

theorem pass1_no_dollar (ev : String → Option String) (l : List Char)
    (h : '$' ∉ l) : pass1 ev l = l := by
  induction l with
  | nil => rw [pass1]
  | cons c cs ih =>
      rw [pass1.eq_def]
      dsimp only
      have hc : c ≠ '$' := fun hc => h (hc ▸ List.mem_cons_self c cs)
      rw [if_neg hc, ih (fun hm => h (List.mem_cons_of_mem c hm))]

theorem pass1_brace (ev : String → Option String) (e after : List Char)
    (hne : e ≠ []) (hbr : '}' ∉ e) :
    pass1 ev ('$' :: '{' :: (e ++ '}' :: after)) =
      (match ev (String.mk e) with
       | some s => s.data
       | Option.none => '$' :: '{' :: (e ++ ['}'])) ++ pass1 ev after := by
  rw [pass1.eq_2, if_pos rfl]
  split
  next e2 after2 heq =>
    rw [readUpToBrace_no_brace e after hbr] at heq
    have hpair := Option.some.inj heq
    have he : e = e2 := congrArg Prod.fst hpair
    have ha : after = after2 := congrArg Prod.snd hpair
    subst he
    subst ha
    have hie : e.isEmpty = false := by
      cases e with
      | nil => exact absurd rfl hne
      | cons a as => rfl
    rw [hie]
    rfl
  next heq =>
    rw [readUpToBrace_no_brace e after hbr] at heq
    cases heq

theorem pass2_no_dollar (gv : String → Option String) :
    ∀ (l : List Char) (prev : Option Char), '$' ∉ l →
      pass2 gv prev l = l := by
  intro l
  induction l with
  | nil =>
      intro prev _
      rw [pass2.eq_1]
  | cons c cs ih =>
      intro prev h
      rw [pass2.eq_def]
      dsimp only
      have hc : ¬(c = '$' ∧ prev ≠ some '\\') := fun hp => h (by
        rw [← hp.1]
        exact List.mem_cons_self c cs)
      rw [if_neg hc, ih (some c) (fun hm => h (List.mem_cons_of_mem c hm))]

/-- Claim C9 counterexample: with `x` bound to `5`, expanding the text
dollar-brace-dollar-x-brace first fails to evaluate the inner expression
(it is a syntax error), so pass 1 keeps the original text — but pass 2
then rewrites the bare `$x` inside it, producing dollar-brace-5-brace: the
failed dollar-brace occurrence is not left intact in the output. -/
theorem c9_counterexample :
    expandVariables (fun _ => Option.none)
      (fun n => if n = "x" then some "5" else Option.none)
      (String.mk ['$', '{', '$', 'x', '}']) =
      String.mk ['$', '{', '5', '}'] ∧
    String.mk ['$', '{', '5', '}'] ≠
      String.mk ['$', '{', '$', 'x', '}'] := by
  constructor
  · rw [expandVariables]
    apply congrArg String.mk
    show pass2 _ Option.none
      (pass1 _ ['$', '{', '$', 'x', '}']) = _
    have h1 : pass1 (fun _ => Option.none)
        ['$', '{', '$', 'x', '}'] =
        ['$', '{', '$', 'x', '}'] := by
      simp [pass1, readUpToBrace]
    rw [h1]
    simp [pass2, isIdentStart, isIdentChar]
  · decide

def lastOr : List Char → Option Char → Option Char
  | [], prev => prev
  | c :: cs, _ => lastOr cs (some c)

theorem pass1_append_no_dollar (ev : String → Option String) :
    ∀ (l : List Char), '$' ∉ l → ∀ (m : List Char),
      pass1 ev (l ++ m) = l ++ pass1 ev m := by
  intro l
  induction l with
  | nil =>
      intro _ m
      rfl
  | cons c cs ih =>
      intro h m
      rw [List.cons_append, pass1.eq_def]
      dsimp only
      have hc : c ≠ '$' := fun hc => h (hc ▸ List.mem_cons_self c cs)
      rw [if_neg hc, ih (fun hm => h (List.mem_cons_of_mem c hm)) m]
      rfl

theorem pass2_plain_append (gv : String → Option String) :
    ∀ (l : List Char), '$' ∉ l → ∀ (m : List Char) (prev : Option Char),
      pass2 gv prev (l ++ m) = l ++ pass2 gv (lastOr l prev) m := by
  intro l
  induction l with
  | nil =>
      intro _ m prev
      rfl
  | cons c cs ih =>
      intro h m prev
      rw [List.cons_append, pass2.eq_def]
      dsimp only
      have hc : ¬(c = '$' ∧ prev ≠ some '\\') := fun hp => h (by
        rw [← hp.1]
        exact List.mem_cons_self c cs)
      rw [if_neg hc, ih (fun hm => h (List.mem_cons_of_mem c hm)) m (some c)]
      rfl

/-- A segment of input text: dollar-free plain text, a dollar-brace
occurrence with expression `e`, or a bare `$name` occurrence. -/
inductive Chunk where
  | plain (l : List Char)
  | brace (e : List Char)
  | bare (d : Char) (ds : List Char)

/-- The text a segment stands for. -/
def Chunk.flat : Chunk → List Char
  | .plain l => l
  | .brace e => '$' :: '{' :: (e ++ ['}'])
  | .bare d ds => '$' :: d :: ds

/-- The text a segment list stands for. -/
def flatChunks : List Chunk → List Char
  | [] => []
  | c :: rest => c.flat ++ flatChunks rest

/-- Per-segment conditions: plain text has no dollar sign; a dollar-brace
occurrence has a nonempty expression free of closing braces and dollar
signs whose evaluation fails; a bare occurrence is a well-formed
identifier that the table does not define. -/
def chunkOK (ev gv : String → Option String) : Chunk → Prop
  | .plain l => '$' ∉ l
  | .brace e => e ≠ [] ∧ '}' ∉ e ∧ '$' ∉ e ∧
      ev (String.mk e) = Option.none
  | .bare d ds => isIdentStart d = true ∧ (∀ c ∈ ds, isIdentChar c = true) ∧
      gv (String.mk (d :: ds)) = Option.none

/-- Adjacency condition: a bare occurrence must not be followed by an
identifier character (which would extend the match) or an opening brace
(which would trigger the lookahead backtrack). -/
def boundary (c : Chunk) (m : List Char) : Prop :=
  match c with
  | .bare _ _ => ∀ ch, m.head? = some ch → isIdentChar ch = false ∧ ch ≠ '{'
  | _ => True

/-- All segments in order satisfy their own and the adjacency
conditions. -/
def chunksOK (ev gv : String → Option String) : List Chunk → Prop
  | [] => True
  | c :: rest => chunkOK ev gv c ∧ boundary c (flatChunks rest) ∧
      chunksOK ev gv rest

theorem pass1_chunks (ev gv : String → Option String) :
    ∀ (cs : List Chunk), chunksOK ev gv cs →
      pass1 ev (flatChunks cs) = flatChunks cs := by
  intro cs
  induction cs with
  | nil =>
      intro _
      rw [flatChunks, pass1]
  | cons c rest ih =>
      intro hok
      obtain ⟨hc, _, hrest⟩ := hok
      cases c with
      | plain l =>
          rw [flatChunks]
          show pass1 ev (l ++ flatChunks rest) = l ++ flatChunks rest
          rw [pass1_append_no_dollar ev l hc (flatChunks rest), ih hrest]
      | brace e =>
          obtain ⟨hne, hbr, hdl, hev⟩ := hc
          rw [flatChunks]
          show pass1 ev (('$' :: '{' :: (e ++ ['}'])) ++
            flatChunks rest) = _
          have hshape : ('$' :: '{' :: (e ++ ['}'])) ++
              flatChunks rest =
              '$' :: '{' :: (e ++ '}' :: flatChunks rest) := by
            simp
          rw [hshape, pass1_brace ev e (flatChunks rest) hne hbr, hev,
            ih hrest]
          rfl
      | bare d ds =>
          obtain ⟨hd, hds, _⟩ := hc
          have hdne : ∀ rest2 : List Char,
              d :: (ds ++ flatChunks rest) = '{' :: rest2 → False := by
            intro rest2 hcon
            have hdb : d = '{' := (List.cons.inj hcon).1
            rw [hdb] at hd
            exact absurd hd (by decide)
          have hnd : '$' ∉ d :: ds := by
            intro hm
            rcases List.mem_cons.mp hm with h2 | h2
            · rw [← h2] at hd
              exact absurd hd (by decide)
            · have := hds '$' h2
              exact absurd this (by decide)
          rw [flatChunks]
          show pass1 ev ('$' :: d :: (ds ++ flatChunks rest)) = _
          rw [pass1.eq_3 ev '$' (d :: (ds ++ flatChunks rest)) hdne,
            ite_self]
          show '$' :: pass1 ev ((d :: ds) ++ flatChunks rest) = _
          rw [pass1_append_no_dollar ev (d :: ds) hnd (flatChunks rest),
            ih hrest]
          rfl

theorem pass2_chunks (ev gv : String → Option String) :
    ∀ (cs : List Chunk), chunksOK ev gv cs →
      ∀ (prev : Option Char), pass2 gv prev (flatChunks cs) = flatChunks cs := by
  intro cs
  induction cs with
  | nil =>
      intro _ prev
      rw [flatChunks, pass2.eq_1]
  | cons c rest ih =>
      intro hok prev
      obtain ⟨hc, hbd, hrest⟩ := hok
      cases c with
      | plain l =>
          rw [flatChunks]
          show pass2 gv prev (l ++ flatChunks rest) = l ++ flatChunks rest
          rw [pass2_plain_append gv l hc (flatChunks rest) prev,
            ih hrest (lastOr l prev)]
      | brace e =>
          obtain ⟨hne, hbr, hdl, hev⟩ := hc
          rw [flatChunks]
          show pass2 gv prev (('$' :: '{' :: (e ++ ['}'])) ++
            flatChunks rest) = _
          have hnd : '$' ∉ '{' :: (e ++ ['}']) := by
            intro hm
            rcases List.mem_cons.mp hm with h2 | h2
            · exact absurd h2.symm (by decide)
            · rcases List.mem_append.mp h2 with h3 | h3
              · exact hdl h3
              · rw [List.mem_singleton] at h3
                exact absurd h3 (by decide)
          have hcont : pass2 gv (some '$')
              (('{' :: (e ++ ['}'])) ++ flatChunks rest) =
              ('{' :: (e ++ ['}'])) ++ flatChunks rest := by
            rw [pass2_plain_append gv ('{' :: (e ++ ['}'])) hnd
              (flatChunks rest) (some '$'),
              ih hrest (lastOr ('{' :: (e ++ ['}'])) (some '$'))]
          show pass2 gv prev
            ('$' :: '{' :: ((e ++ ['}']) ++ flatChunks rest)) = _
          rw [pass2.eq_2]
          by_cases hp : prev = some '\\'
          · rw [if_neg (fun hand => hand.2 hp)]
            show '$' :: pass2 gv (some '$')
              (('{' :: (e ++ ['}'])) ++ flatChunks rest) = _
            rw [hcont]
            rfl
          · rw [if_pos ⟨rfl, hp⟩, if_neg (by decide)]
            show '$' :: pass2 gv (some '$')
              (('{' :: (e ++ ['}'])) ++ flatChunks rest) = _
            rw [hcont]
            rfl
      | bare d ds =>
          obtain ⟨hd, hds, hgv⟩ := hc
          have hnd : '$' ∉ d :: ds := by
            intro hm
            rcases List.mem_cons.mp hm with h2 | h2
            · rw [← h2] at hd
              exact absurd hd (by decide)
            · have := hds '$' h2
              exact absurd this (by decide)
          rw [flatChunks]
          show pass2 gv prev ('$' :: d :: (ds ++ flatChunks rest)) = _
          rw [pass2.eq_2]
          by_cases hp : prev = some '\\'
          · rw [if_neg (fun hand => hand.2 hp)]
            show '$' :: pass2 gv (some '$')
              ((d :: ds) ++ flatChunks rest) = _
            rw [pass2_plain_append gv (d :: ds) hnd (flatChunks rest)
              (some '$'), ih hrest (lastOr (d :: ds) (some '$'))]
            rfl
          · rw [if_pos ⟨rfl, hp⟩, if_pos hd]
            have htake : (ds ++ flatChunks rest).takeWhile isIdentChar =
                ds := by
              rw [List.takeWhile_append_of_pos hds]
              cases hm : flatChunks rest with
              | nil => simp
              | cons ch m2 =>
                  have hch := (hbd ch (by rw [hm]; rfl)).1
                  rw [List.takeWhile_cons]
                  simp [hch]
            have hdrop : (ds ++ flatChunks rest).dropWhile isIdentChar =
                flatChunks rest := by
              rw [List.dropWhile_append_of_pos hds]
              cases hm : flatChunks rest with
              | nil => rfl
              | cons ch m2 =>
                  have hch := (hbd ch (by rw [hm]; rfl)).1
                  rw [List.dropWhile_cons]
                  simp [hch]
            split
            next after2 heq =>
              rw [hdrop] at heq
              have := (hbd '{' (by rw [heq]; rfl)).2
              exact absurd rfl this
            next heq =>
              rw [htake, hgv, hdrop, ih hrest _]
              rfl

/-- Claim C9 (amended): in any input text assembled from dollar-free
segments, failing dollar-brace occurrences (nonempty expression, no
closing brace or dollar sign inside), and undefined bare `$name`
occurrences not followed by an identifier character or an opening brace,
`expand_variables` returns the whole text unchanged: every failed
occurrence survives verbatim in place, with no partial replacement,
whatever surrounds it and however many occurrences there are.  The
guarantee genuinely needs the no-dollar proviso on failed expressions:
pass 2 runs over pass 1's output, so a failed occurrence whose
expression contains a defined `$name` is partially rewritten (see the
counterexample). -/
theorem c9_failed_expansions_preserved (ev gv : String → Option String)
    (cs : List Chunk) (hok : chunksOK ev gv cs) :
    expandVariables ev gv (String.mk (flatChunks cs)) =
      String.mk (flatChunks cs) := by
  rw [expandVariables]
  apply congrArg String.mk
  show pass2 gv Option.none (pass1 ev (flatChunks cs)) = _
  rw [pass1_chunks ev gv cs hok, pass2_chunks ev gv cs hok Option.none]

/-- Segments for the C9 witness: the text `c ${h-} $yz` — plain text
around a failing dollar-brace occurrence and an undefined bare name. -/
def wChunks : List Chunk :=
  [.plain ['c', ' '], .brace ['h', '-'],
   .plain [' '], .bare 'y' ['z']]

/-- Claim C9 witness: the amended theorem at a failing evaluator and an
empty table, on a text with surrounding segments. -/
theorem c9_failed_expansions_preserved_witness :
    chunksOK (fun _ => Option.none) (fun _ => Option.none) wChunks ∧
    expandVariables (fun _ => Option.none) (fun _ => Option.none)
      (String.mk (flatChunks wChunks)) = String.mk (flatChunks wChunks) := by
  have hok : chunksOK (fun _ => Option.none) (fun _ => Option.none)
      wChunks := by
    refine ⟨show ('$' : Char) ∉ ['c', ' '] by decide, trivial,
      ⟨by decide, by decide, by decide, rfl⟩, trivial,
      show ('$' : Char) ∉ [' '] by decide, trivial,
      ⟨by decide, by decide, rfl⟩, ?_, trivial⟩
    intro ch hch
    exact Option.noConfusion hch
  exact ⟨hok, c9_failed_expansions_preserved (fun _ => Option.none)
    (fun _ => Option.none) wChunks hok⟩

end Expand
